import Mathlib

/-!
Verification development for the `email-scraper-bot` repository.

The definitions below are a shallow embedding of `src/scraper.js`.  Pure
string-processing functions (`toBaseUrl`, `normalizeUrl`, `isValidTld`,
`stripEmailLabelGlue`, `cleanEmail`, the `fetchPage` filters) are translated
into executable Lean functions over `String` / `List Char`.  The concurrent
worker pool of `scrapeWebsite` is embedded as a labelled small-step relation
over a global crawl state, with one transition per synchronous block of a
worker between suspension points, matching the cooperative single-threaded
event-loop semantics of Node.

Node's WHATWG `new URL` parser is modelled by `urlParse` below, restricted to
http/https URLs over printable-ASCII input without userinfo, IPv6 hosts,
IDN/punycode hosts, IPv4 normalisation, backslash separators, or characters
that the WHATWG serialiser would percent-encode.  Within that fragment the
model follows the WHATWG algorithm: scheme lower-casing, host lower-casing,
default-port stripping, dot-segment removal, and component serialisation.
-/

set_option maxRecDepth 4000

/-! ## Character helpers -/

def isWsChar (c : Char) : Bool :=
  c = ' ' || c = '\t' || c = '\n' || c = '\r' || c = '\x0b' || c = '\x0c'

def isDigitChar (c : Char) : Bool := decide (48 ≤ c.toNat ∧ c.toNat ≤ 57)

def isUpperAZ (c : Char) : Bool := decide (65 ≤ c.toNat ∧ c.toNat ≤ 90)

def isLowerAZ (c : Char) : Bool := decide (97 ≤ c.toNat ∧ c.toNat ≤ 122)

def isAsciiLetter (c : Char) : Bool := isUpperAZ c || isLowerAZ c

/-- ASCII lower-casing of one character (model of JS `toLowerCase` on the
ASCII fragment). -/
def asciiLowerChar (c : Char) : Char :=
  if isUpperAZ c then Char.ofNat (c.toNat + 32) else c

def lowerList (cs : List Char) : List Char := cs.map asciiLowerChar

/-! ## List-of-char helpers (JS string primitives) -/

def trimLeftChars (cs : List Char) : List Char := cs.dropWhile isWsChar

def trimRightChars (cs : List Char) : List Char := (cs.reverse.dropWhile isWsChar).reverse

/-- Model of JS `String.prototype.trim` on ASCII input. -/
def trimChars (cs : List Char) : List Char := trimRightChars (trimLeftChars cs)

/-- `leadsWith pat s` is true iff `pat` occurs at the start of `s`. -/
def leadsWith : List Char → List Char → Bool
  | [], _ => true
  | _ :: _, [] => false
  | p :: ps, c :: cs => p = c && leadsWith ps cs

/-- Substring occurrence test (model of JS `includes`). -/
def hasSub (pat : List Char) : List Char → Bool
  | [] => pat.isEmpty
  | c :: rest => leadsWith pat (c :: rest) || hasSub pat rest

/-- Case-insensitive prefix test (model of an `/^.../i` anchored regex). -/
def ciLeadsWith (pat s : List Char) : Bool := leadsWith (lowerList pat) (lowerList s)

/-- First index of character `c` (model of JS `indexOf` for a single char). -/
def firstIdxChar (c : Char) : List Char → Option Nat
  | [] => none
  | x :: rest => if x = c then some 0 else (firstIdxChar c rest).map (· + 1)

/-- Auxiliary for `lastIndexOfStr`. -/
def lastIdxAux (pat : List Char) : List Char → Nat → Option Nat
  | [], i => if pat.isEmpty then some i else none
  | c :: rest, i =>
    match lastIdxAux pat rest (i + 1) with
    | some j => some j
    | none => if leadsWith pat (c :: rest) then some i else none

/-- Model of JS `lastIndexOf` (returns `-1` when absent). -/
def lastIndexOfStr (s pat : List Char) : Int :=
  match lastIdxAux pat s 0 with
  | some n => (n : Int)
  | none => -1

/-! ## Email validation pipeline (src/scraper.js lines 60–103 and 244–296) -/

/-- Model of `isValidTld` (src/scraper.js 65–69): lower-case, then require
`^[a-z]{2,24}$`. The JS `!tld` early-out coincides with the length check. -/
def isValidTld (tld : List Char) : Bool :=
  let x := lowerList tld
  decide (2 ≤ x.length) && decide (x.length ≤ 24) && x.all isLowerAZ

def isSepChar (c : Char) : Bool := c = ':' || c = '-' || c = '_'

/-- The `while` loop advancing `cutPos` over `[:\-_]` separators in
`stripEmailLabelGlue`. -/
def advanceSeps (left : List Char) (p : Nat) : Nat :=
  p + ((left.drop p).takeWhile isSepChar).length

/-- Model of `stripEmailLabelGlue` (src/scraper.js 75–103): remove a trailing
"email"/"e-mail" label (and following `:`/`-`/`_` separators) glued onto the
front of the local part. -/
def stripEmailLabelGlue (raw : List Char) : List Char :=
  let s := trimChars raw
  match firstIdxChar '@' s with
  | none => s
  | some a =>
    if a = 0 then s else
    let left := s.take a
    let right := s.drop (a + 1)
    let lowerLeft := lowerList left
    let idxEmail := lastIndexOfStr lowerLeft ['e', 'm', 'a', 'i', 'l']
    let idxEMail := lastIndexOfStr lowerLeft ['e', '-', 'm', 'a', 'i', 'l']
    let idx := max idxEmail idxEMail
    if idx = -1 then s else
    let labelLen : Int := if idxEMail = idx then 6 else 5
    let cutPos := advanceSeps left (idx + labelLen).toNat
    let newLeft := left.drop cutPos
    if newLeft.isEmpty then s else newLeft ++ '@' :: right

def isLocalChar (c : Char) : Bool :=
  isAsciiLetter c || isDigitChar c || c = '.' || c = '_' || c = '%' || c = '+' || c = '-'

def isDomainChar (c : Char) : Bool :=
  isAsciiLetter c || isDigitChar c || c = '.' || c = '-'

def leadWrapChar (c : Char) : Bool :=
  c = '<' || c = '(' || c = '"' || c = '\'' || c = '[' || c = '\x7b'

def trailPunctChar (c : Char) : Bool :=
  c = '>' || c = ')' || c = '"' || c = '\'' || c = ']' || c = '\x7d' ||
  c = '.' || c = ',' || c = ';' || c = ':' || c = '!'

/-- One percent-encoded whitespace digraph (`20`, `09`, `0a`, `0d`,
case-insensitive) as matched by the `FIX 1` regex alternation. -/
def wsCodePair (a b : Char) : Bool :=
  (a = '2' && b = '0') || (a = '0' && (b = '9' || b = 'a' || b = 'A' || b = 'd' || b = 'D'))

/-- Greedy maximal run of whitespace digraphs, as matched by the `+` in
`^%(?:20|09|0a|0d)+`. -/
def takeWsCodes : List Char → List Char × List Char
  | a :: b :: rest =>
    if wsCodePair a b then
      let p := takeWsCodes rest
      (a :: b :: p.1, p.2)
    else ([], a :: b :: rest)
  | l => ([], l)

/-- Model of `FIX 1` (src/scraper.js 268–271): replace the anchored match of
`%(?:20|09|0a|0d)+` (a single `%` followed by a maximal run of whitespace
digraphs) by the empty string; no-op when the regex does not match. -/
def fix1Strip (l : List Char) : List Char :=
  match l with
  | '%' :: rest =>
    let p := takeWsCodes rest
    if p.1.isEmpty then l else p.2
  | _ => l

/-- Model of `FIX 2` (src/scraper.js 273–276): when the local part matches
`^\d{1,3}%[A-Za-z]`, strip the `\d{1,3}%+` prefix (the `%` run has length one
because the tested character after the first `%` is a letter). -/
def fix2Strip (l : List Char) : List Char :=
  let n := (l.takeWhile isDigitChar).length
  if 1 ≤ n ∧ n ≤ 3 then
    match l.drop n with
    | '%' :: c :: rest => if isAsciiLetter c then c :: rest else l
    | _ => l
  else l

/-- Split at the unique `@`; the anchored grammar
`^([A-Za-z0-9._%+-]{1,64})@([A-Za-z0-9.-]{1,253})$` can only match when the
string contains exactly one `@` (neither class contains `@`). -/
def splitAtSign (cs : List Char) : Option (List Char × List Char) :=
  match firstIdxChar '@' cs with
  | none => none
  | some a =>
    let l := cs.take a
    let d := cs.drop (a + 1)
    if d.any (· = '@') then none else some (l, d)

def isDotDash (c : Char) : Bool := c = '-' || c = '.'

/-- Model of `EmailScraper.cleanEmail` (src/scraper.js 244–296), on the
character list of the candidate. -/
def cleanEmailChars (candidate : List Char) : Option (List Char) :=
  let e0 := trimChars candidate
  let e1 := e0.dropWhile leadWrapChar
  let e2 := (e1.reverse.dropWhile trailPunctChar).reverse
  let email := stripEmailLabelGlue e2
  if email.any isWsChar then none else
  match splitAtSign email with
  | none => none
  | some (l0, domain) =>
    if !(decide (1 ≤ l0.length) && decide (l0.length ≤ 64) && l0.all isLocalChar) then none else
    if !(decide (1 ≤ domain.length) && decide (domain.length ≤ 253) && domain.all isDomainChar)
    then none else
    let l1 := fix1Strip l0
    let l2 := fix2Strip l1
    if l2.isEmpty then none else
    if !(decide (l2.length ≤ 64) && l2.all isLocalChar) then none else
    let lastDot := lastIndexOfStr domain ['.']
    if lastDot ≤ 0 ∨ lastDot = (domain.length : Int) - 1 then none else
    let tld := domain.drop (lastDot.toNat + 1)
    if !isValidTld tld then none else
    if hasSub ['.', '.'] domain then none else
    if (domain.reverse.head?.map isDotDash).getD false then none else
    if (domain.head?.map isDotDash).getD false then none else
    some (l2 ++ '@' :: domain)

/-- Model of `EmailScraper.cleanEmail` on `String`s. A missing / non-string
candidate is out of the model (the JS guard returns `null` for those). -/
def cleanEmail (candidate : String) : Option String :=
  (cleanEmailChars candidate.data).map (fun cs => ⟨cs⟩)

/-! ## URL model (Node WHATWG `new URL`, restricted; see header) -/

/-- `span`-style split controlled by a predicate; defined by plain structural
recursion so that it reduces definitionally. -/
def spanP (p : Char → Bool) : List Char → List Char × List Char
  | [] => ([], [])
  | c :: rest =>
    if p c then
      let r := spanP p rest
      (c :: r.1, r.2)
    else ([], c :: rest)

def digitChr (d : Nat) : Char :=
  match d with
  | 0 => '0' | 1 => '1' | 2 => '2' | 3 => '3' | 4 => '4'
  | 5 => '5' | 6 => '6' | 7 => '7' | 8 => '8' | _ => '9'

def digitVal (c : Char) : Nat := c.toNat - 48

def digitsVal (cs : List Char) : Nat := cs.foldl (fun a c => 10 * a + digitVal c) 0

/-- Fuel-driven decimal printer (fuel `n+1` always suffices for `n`). -/
def natPrintAux : Nat → Nat → List Char
  | 0, _ => []
  | f + 1, n => if n < 10 then [digitChr n] else natPrintAux f (n / 10) ++ [digitChr (n % 10)]

def natPrint (n : Nat) : List Char := natPrintAux (n + 1) n

/-- Parsed URL record: the components of a WHATWG URL with special scheme. -/
structure UrlRec where
  scheme : String
  host : String
  port : Option Nat
  path : List String
  query : Option String
  frag : Option String
deriving DecidableEq, Repr

def isSchemeChar (c : Char) : Bool :=
  isAsciiLetter c || isDigitChar c || c = '+' || c = '-' || c = '.'

def isHostChar (c : Char) : Bool :=
  isLowerAZ c || isDigitChar c || c = '.' || c = '-' || c = '_'

/-- Printable ASCII characters that the model accepts in a URL: within this
set the WHATWG path/query serialiser is the identity (no percent-encoding). -/
def isUrlChar (c : Char) : Bool :=
  decide (33 ≤ c.toNat) && decide (c.toNat ≤ 126) &&
  !(c.toNat = 34 || c.toNat = 60 || c.toNat = 62 || c.toNat = 92 || c.toNat = 94 ||
    c.toNat = 96 || c.toNat = 123 || c.toNat = 124 || c.toNat = 125)

def isAuthEndChar (c : Char) : Bool := c = '/' || c = '?' || c = '#'

def parseScheme (cs : List Char) : Option (String × List Char) :=
  let s := spanP isSchemeChar cs
  match s.2 with
  | ':' :: rest =>
    let sch := lowerList s.1
    if sch = ['h', 't', 't', 'p'] then some ("http", rest)
    else if sch = ['h', 't', 't', 'p', 's'] then some ("https", rest)
    else none
  | _ => none

def parsePort (cs : List Char) : Option (Option Nat) :=
  if cs.isEmpty then some none
  else if cs.all isDigitChar then
    let n := digitsVal cs
    if n ≤ 65535 then some (some n) else none
  else none

def parseAuthority (cs : List Char) : Option (String × Option Nat × List Char) :=
  let a := spanP (fun c => !isAuthEndChar c) cs
  let auth := a.1
  let rest := a.2
  if auth.any (fun c => c = '@' || c = '[' || c = ']') then none
  else
    let hp := spanP (fun c => c ≠ ':') auth
    let hostCs := lowerList hp.1
    if hostCs.isEmpty then none
    else if !hostCs.all isHostChar then none
    else
      match hp.2 with
      | ':' :: pcs =>
        match parsePort pcs with
        | none => none
        | some p => some (⟨hostCs⟩, p, rest)
      | _ => some (⟨hostCs⟩, none, rest)

def stripDefaultPort (sch : String) (p : Option Nat) : Option Nat :=
  if (sch = "http" ∧ p = some 80) ∨ (sch = "https" ∧ p = some 443) then none else p

/-- Split on `/` (at least one piece; pieces contain no `/`). -/
def splitSlash : List Char → List (List Char)
  | [] => [[]]
  | c :: rest =>
    if c = '/' then [] :: splitSlash rest
    else
      match splitSlash rest with
      | s :: ss => (c :: s) :: ss
      | [] => [[c]]

def isDotSegL (s : List Char) : Bool :=
  let l := lowerList s
  l = ['.'] || l = ['%', '2', 'e']

def isDDotSegL (s : List Char) : Bool :=
  let l := lowerList s
  l = ['.', '.'] || l = ['.', '%', '2', 'e'] || l = ['%', '2', 'e', '.'] ||
  l = ['%', '2', 'e', '%', '2', 'e']

/-- WHATWG dot-segment processing over the slash-split pieces of a path:
single dots are dropped, double dots pop, and a trailing dot segment leaves a
trailing empty segment. -/
def dotProcess : List (List Char) → List (List Char) → List (List Char)
  | acc, [] => acc
  | acc, [s] =>
    if isDDotSegL s then acc.dropLast ++ [[]]
    else if isDotSegL s then acc ++ [[]]
    else acc ++ [s]
  | acc, s :: rest =>
    if isDDotSegL s then dotProcess acc.dropLast rest
    else if isDotSegL s then dotProcess acc rest
    else dotProcess (acc ++ [s]) rest

def parsePath (cs : List Char) : List String × List Char :=
  match cs with
  | '/' :: rest =>
    let pr := spanP (fun c => !(c = '?' || c = '#')) rest
    ((dotProcess [] (splitSlash pr.1)).map (fun l => ⟨l⟩), pr.2)
  | _ => ([""], cs)

def parseQuery (cs : List Char) : Option String × List Char :=
  match cs with
  | '?' :: rest =>
    let q := spanP (fun c => c ≠ '#') rest
    (some ⟨q.1⟩, q.2)
  | _ => (none, cs)

def parseFrag (cs : List Char) : Option (Option String) :=
  match cs with
  | [] => some none
  | '#' :: rest => some (some ⟨rest⟩)
  | _ => none

/-- Recognise the `//` following the scheme colon. -/
def slashSlash : List Char → Option (List Char)
  | '/' :: '/' :: r => some r
  | _ => none

def urlParseCore (cs : List Char) : Option UrlRec :=
  match parseScheme cs with
  | none => none
  | some (sch, r1) =>
    match slashSlash r1 with
    | none => none
    | some r2 =>
      match parseAuthority r2 with
      | none => none
      | some (host, port, r3) =>
        let pp := parsePath r3
        let qq := parseQuery pp.2
        match parseFrag qq.2 with
        | none => none
        | some fr => some ⟨sch, host, stripDefaultPort sch port, pp.1, qq.1, fr⟩

/-- WHATWG input preprocessing: strip surrounding whitespace, remove tabs and
newlines, and (model restriction) fail on any character outside the
percent-encoding-free printable ASCII fragment. -/
def preprocessUrl (s : String) : Option (List Char) :=
  let cs := trimChars s.data
  let cs := cs.filter (fun c => !(c = '\t' || c = '\n' || c = '\r'))
  if cs.all isUrlChar then some cs else none

/-- Model of Node's `new URL(s)` (absolute form), restricted as described in
the file header. -/
def urlParse (s : String) : Option UrlRec :=
  (preprocessUrl s).bind urlParseCore

def interSlash : List (List Char) → List Char
  | [] => []
  | [s] => s
  | s :: rest => s ++ '/' :: interSlash rest

def pathChars (segs : List String) : List Char :=
  '/' :: interSlash (segs.map String.data)

def portChars (p : Option Nat) : List Char :=
  match p with
  | none => []
  | some n => ':' :: natPrint n

/-- WHATWG serialisation of a parsed URL (model of `URL.prototype.toString`
on the modelled fragment). -/
def serializeUrl (u : UrlRec) : String :=
  ⟨u.scheme.data ++ ':' :: '/' :: '/' :: u.host.data ++ portChars u.port ++
    pathChars u.path ++
    (match u.query with | none => [] | some q => '?' :: q.data) ++
    (match u.frag with | none => [] | some f => '#' :: f.data)⟩

/-- Model of `URL.prototype.origin` for http/https URLs. -/
def originStr (u : UrlRec) : String :=
  ⟨u.scheme.data ++ ':' :: '/' :: '/' :: u.host.data ++ portChars u.port⟩

/-- The single trailing-slash strip of `normalizeUrl`
(`u.pathname.slice(0, -1)` when the path is longer than `/` and ends in `/`):
on path segments, drop one trailing empty segment unless the path is root. -/
def stripTrailSlash (segs : List String) : List String :=
  if segs.getLast? = some "" ∧ segs ≠ [""] then segs.dropLast else segs

/-- The mutation steps of `normalizeUrl` (src/scraper.js 40–52) on a parsed
URL: clear the fragment, lower-case the host, strip a default port, strip one
trailing slash. -/
def normRec (u : UrlRec) : UrlRec :=
  { u with
    frag := none
    host := ⟨lowerList u.host.data⟩
    port := if (u.scheme = "http" ∧ u.port = some 80) ∨ (u.scheme = "https" ∧ u.port = some 443)
            then none else u.port
    path := stripTrailSlash u.path }

/-- Model of WHATWG relative-reference resolution against a base record.
Modelled restriction: scheme-relative, path-absolute, query-only,
fragment-only, empty and path-relative (merge) forms only. -/
def resolveRel (b : UrlRec) (r : String) : Option UrlRec :=
  match preprocessUrl r with
  | none => none
  | some cs =>
    match cs with
    | [] => some { b with frag := none }
    | '/' :: '/' :: rest => urlParseCore (b.scheme.data ++ ':' :: '/' :: '/' :: rest)
    | '/' :: rest =>
      let pp := parsePath ('/' :: rest)
      let qq := parseQuery pp.2
      match parseFrag qq.2 with
      | none => none
      | some fr => some { b with path := pp.1, query := qq.1, frag := fr }
    | '?' :: rest =>
      let qq := parseQuery ('?' :: rest)
      match parseFrag qq.2 with
      | none => none
      | some fr => some { b with query := qq.1, frag := fr }
    | '#' :: rest => some { b with frag := some ⟨rest⟩ }
    | _ =>
      let pr := spanP (fun c => !(c = '?' || c = '#')) cs
      let segs := dotProcess [] ((b.path.map String.data).dropLast ++ splitSlash pr.1)
      let qq := parseQuery pr.2
      match parseFrag qq.2 with
      | none => none
      | some fr => some { b with path := segs.map (fun l => ⟨l⟩), query := qq.1, frag := fr }

/-- Model of `new URL(url, base)` / `new URL(url)` as used by `normalizeUrl`:
an absolute parse wins; otherwise the string is resolved against the base. -/
def jsURL (url : String) (base : Option String) : Option UrlRec :=
  match urlParse url with
  | some u => some u
  | none =>
    match base with
    | none => none
    | some b => (urlParse b).bind (fun pb => resolveRel pb url)

/-- Model of `normalizeUrl` (src/scraper.js 36–58): parse (resolving relative
references against `base` when given), apply the normalisation mutations, and
serialise; `none` models the `catch` branch returning `null`. -/
def normalizeUrl (url : String) (base : Option String) : Option String :=
  (jsURL url base).map (fun u => serializeUrl (normRec u))

def httpSlashesPat : List Char := ['h', 't', 't', 'p', ':', '/', '/']

def httpsSlashesPat : List Char := ['h', 't', 't', 'p', 's', ':', '/', '/']

/-- Model of the `/^https?:\/\//i` test in `toBaseUrl`. -/
def startsHttpSlashes (s : String) : Bool :=
  ciLeadsWith httpSlashesPat s.data || ciLeadsWith httpsSlashesPat s.data

/-- Model of `toBaseUrl` (src/scraper.js 12–26): trim, prepend `https://`
when the http(s) scheme prefix is missing, parse, reject non-http(s), and
return the origin with a trailing slash. -/
def toBaseUrl (input : String) : Option String :=
  if input = "" then none
  else
    let raw : String := ⟨trimChars input.data⟩
    let raw2 : String := if startsHttpSlashes raw then raw else ⟨httpsSlashesPat ++ raw.data⟩
    match urlParse raw2 with
    | none => none
    | some u =>
      if ¬(u.scheme = "http" ∨ u.scheme = "https") then none
      else some ⟨(originStr u).data ++ ['/']⟩

/-- A path segment as produced by the modelled parser: characters from the
allowed set, no separators, and not a dot segment. -/
def segOk (s : String) : Bool :=
  s.data.all (fun c => isUrlChar c && !(c = '/' || c = '?' || c = '#')) &&
  !isDotSegL s.data && !isDDotSegL s.data

/-- Well-formedness of a `UrlRec` as guaranteed for every output of
`urlParse`; exactly what the round-trip through `serializeUrl` needs. -/
def UrlValid (u : UrlRec) : Prop :=
  (u.scheme = "http" ∨ u.scheme = "https") ∧
  u.host.data ≠ [] ∧
  u.host.data.all isHostChar = true ∧
  (∀ n, u.port = some n →
    n ≤ 65535 ∧ ¬(u.scheme = "http" ∧ n = 80) ∧ ¬(u.scheme = "https" ∧ n = 443)) ∧
  u.path ≠ [] ∧
  u.path.all segOk = true ∧
  (∀ q, u.query = some q → q.data.all (fun c => isUrlChar c && c ≠ '#') = true) ∧
  (∀ f, u.frag = some f → f.data.all isUrlChar = true)

/-- `true` iff the path's serialisation ends in a doubled slash: the one case
in which `normalizeUrl` is not idempotent. -/
def endsTwoEmpty (segs : List String) : Bool :=
  match segs.reverse with
  | a :: b :: _ => a = "" && b = ""
  | _ => false

/-! ## Fetcher model (src/scraper.js 309–328) -/

/-- Abstraction of one HTTP fetch attempt.  `transportError` covers every
throwing path of the axios call: DNS, TLS, connection reset, timeout, and a
status outside `[200, 400)` (the `validateStatus` option makes those throw);
all are caught by the `catch` in `fetchPage`.  `response` carries the
`content-type` header, the declared `content-length` (absent or numeric; a
non-numeric header is outside the model), and the body (`none` when the
response data is not a string). -/
inductive FetchOutcome where
  | transportError : FetchOutcome
  | response (contentType : Option String) (contentLength : Option Nat)
      (body : Option String) : FetchOutcome

def htmlPat : List Char := ['t', 'e', 'x', 't', '/', 'h', 't', 'm', 'l']

def xhtmlPat : List Char :=
  ['a', 'p', 'p', 'l', 'i', 'c', 'a', 't', 'i', 'o', 'n', '/', 'x', 'h', 't', 'm', 'l']

/-- HTML-family content-type test: the lower-cased header contains
`text/html` or `application/xhtml`. -/
def htmlFamilyCt (ct : List Char) : Bool := hasSub htmlPat ct || hasSub xhtmlPat ct

/-- Model of `EmailScraper.fetchPage` (src/scraper.js 309–328): a total
function, returning `none` ("no content") instead of ever propagating an
error. -/
def fetchPage (o : FetchOutcome) : Option String :=
  match o with
  | .transportError => none
  | .response ct len body =>
    let ctS := lowerList (ct.getD "").data
    if !ctS.isEmpty && !htmlFamilyCt ctS then none
    else
      let n := len.getD 0
      if n ≠ 0 ∧ n > 2500000 then none
      else body

/-! ## Crawl state and Frontier (src/scraper.js 131–239, 298–307) -/

/-- The immutable per-crawl parameters fixed by the constructor. -/
structure CrawlConfig where
  baseUrl : String
  baseDomain : String
  maxPages : Nat
  maxEmails : Nat
  concurrency : Nat
deriving DecidableEq, Repr

/-- The mutable shared state of a crawl: the pending queue with its cursor,
the visited and enqueued sets (modelled as duplicate-free lists), and the
validated-email set (a list in insertion order; inserts are guarded by
membership, matching JS `Set` semantics). -/
structure CrawlState where
  queue : List String
  qIndex : Nat
  visited : List String
  enqueued : List String
  emails : List String
deriving DecidableEq, Repr

/-- Model of `EmailScraper.isSameDomain` (src/scraper.js 212–218). -/
def isSameDomain (cfg : CrawlConfig) (url : String) : Bool :=
  match urlParse url with
  | some u => u.host = cfg.baseDomain
  | none => false

/-- Model of `EmailScraper.enqueue` (src/scraper.js 220–229). -/
def enqueue (cfg : CrawlConfig) (st : CrawlState) (link : String) : CrawlState :=
  match normalizeUrl link (some cfg.baseUrl) with
  | none => st
  | some norm =>
    if isSameDomain cfg norm = false then st
    else if norm ∈ st.visited then st
    else if norm ∈ st.enqueued then st
    else { st with enqueued := norm :: st.enqueued, queue := st.queue ++ [norm] }

/-- The scan of `getNextUrl`'s `while` loop over `queue` starting at the
cursor; returns the claimed URL (if any) and the number of slots consumed. -/
def getNextAux (visited : List String) : List String → Option String × Nat
  | [] => (none, 0)
  | u :: rest =>
    if u = "" ∨ u ∈ visited then
      let r := getNextAux visited rest
      (r.1, r.2 + 1)
    else (some u, 1)

/-- Model of `EmailScraper.getNextUrl` (src/scraper.js 231–239): the claimed
URL (skipping empty and already-visited slots) and the new cursor value. -/
def getNext (st : CrawlState) : Option String × Nat :=
  let r := getNextAux st.visited (st.queue.drop st.qIndex)
  (r.1, st.qIndex + r.2)

/-- Model of `EmailScraper.storeEmail` (src/scraper.js 298–303). -/
def storeEmail (st : CrawlState) (candidate : String) : CrawlState :=
  match cleanEmail candidate with
  | none => st
  | some e => if e ∈ st.emails then st else { st with emails := st.emails ++ [e] }

/-- Model of `EmailScraper.shouldStop` (src/scraper.js 305–307). -/
def shouldStop (cfg : CrawlConfig) (st : CrawlState) : Bool :=
  decide (cfg.maxEmails ≤ st.emails.length) || decide (cfg.maxPages ≤ st.visited.length)

/-! ## Page parser model (src/scraper.js 330–371)

The cheerio HTML walk and the `emailRegex` scan are abstracted into a
`PageData` record: for an arbitrary fetched page, `mailtoHrefs` are the
`href` values of `a[href^='mailto:']` anchors, `metaMatches` the regex
matches found in `meta[content]` attributes, `textMatches` the regex matches
per body text node, and `links` the `href` values of `a[href]` anchors.
Since crawled pages are arbitrary HTML, these lists range over arbitrary
strings; the claims verified below concern what `parsePage` does with them
(storage, enqueueing and stop-condition checks), not the extraction itself. -/

structure PageData where
  mailtoHrefs : List String
  metaMatches : List String
  textMatches : List (List String)
  links : List String

def mailtoPat : List Char := ['m', 'a', 'i', 'l', 't', 'o', ':']

def telPat : List Char := ['t', 'e', 'l', ':']

def jsSchemePat : List Char :=
  ['j', 'a', 'v', 'a', 's', 'c', 'r', 'i', 'p', 't', ':']

/-- The address part of a `mailto:` href (src/scraper.js 336):
`href.trim().replace(/^mailto:/i, "").split("?")[0].trim()`. -/
def mailtoAddress (href : String) : String :=
  let h := trimChars href.data
  let h1 := if ciLeadsWith mailtoPat h then h.drop 7 else h
  ⟨trimChars (h1.takeWhile (fun c => c ≠ '?'))⟩

/-- The `/^(javascript:|tel:|mailto:)/i` filter on anchor hrefs
(src/scraper.js 368). -/
def skippedHref (href : String) : Bool :=
  ciLeadsWith jsSchemePat href.data || ciLeadsWith telPat href.data ||
  ciLeadsWith mailtoPat href.data

/-- Phase 1 of `parsePage`: store each mailto address (when non-empty). -/
def storeMailto (st : CrawlState) (href : String) : CrawlState :=
  let mail := mailtoAddress href
  if mail = "" then st else storeEmail st mail

/-- Phase 3 of `parsePage`: scan body text parts, stopping after the first
part that makes the stop condition true. -/
def textLoop (cfg : CrawlConfig) (st : CrawlState) : List (List String) → CrawlState
  | [] => st
  | part :: rest =>
    let st1 := part.foldl storeEmail st
    if shouldStop cfg st1 then st1 else textLoop cfg st1 rest

/-- Phase 4 of `parsePage`: enqueue every anchor href that is present and
not of a skipped scheme. -/
def enqueueLinks (cfg : CrawlConfig) (st : CrawlState) (links : List String) : CrawlState :=
  links.foldl (fun s l => if l = "" ∨ skippedHref l = true then s else enqueue cfg s l) st

/-- Model of `EmailScraper.parsePage` (src/scraper.js 330–371): the four
phases with the stop-condition short-circuit between them. -/
def parsePageM (cfg : CrawlConfig) (pg : PageData) (st : CrawlState) : CrawlState :=
  let st1 := pg.mailtoHrefs.foldl storeMailto st
  if shouldStop cfg st1 then st1 else
  let st2 := pg.metaMatches.foldl storeEmail st1
  if shouldStop cfg st2 then st2 else
  let st3 := textLoop cfg st2 pg.textMatches
  if shouldStop cfg st3 then st3 else
  enqueueLinks cfg st3 pg.links

/-! ## Worker pool semantics (src/scraper.js 373–392)

Concurrency is cooperative: workers interleave only at `await` points (the
fetch and the politeness delay).  Each transition below is one maximal
synchronous block of one worker:

* `exitStop` — the worker observes the stop condition at the loop head and
  terminates.
* `exitEmpty` — the queue is exhausted; the cursor advances and the worker
  terminates.
* `claimUrl` — `getNextUrl()` yields a URL and the worker marks it visited
  (`visitedUrls.add`) in the same synchronous block, then suspends inside
  `fetchPage`; the emitted `claim` event marks the start of the fetch.
* `completeFetch` — the suspended fetch returns and the whole of `parsePage`
  (plus the politeness delay) runs; `web` gives each URL's extracted page
  data, with `none` when `fetchPage` returned no content.

There is no guard on `completeFetch`: a worker already inside a fetch always
finishes it — this is the documented in-flight overshoot. -/

inductive WStatus where
  | idle : WStatus
  | fetching (url : String) : WStatus
  | done : WStatus
deriving DecidableEq, Repr

structure SysState where
  st : CrawlState
  ws : List WStatus
deriving DecidableEq, Repr

inductive CrawlEv where
  | claim (url : String) : CrawlEv
  | complete (url : String) : CrawlEv
deriving DecidableEq, Repr

/-- The synchronous state update when a fetch of `url` returns: `parsePage`
when content was extracted, nothing when `fetchPage` gave no content. -/
def pageEffect (cfg : CrawlConfig) (web : String → Option PageData) (url : String)
    (st : CrawlState) : CrawlState :=
  match web url with
  | none => st
  | some pg => parsePageM cfg pg st

/-- Labelled small-step relation of the worker pool. -/
inductive StepR (cfg : CrawlConfig) (web : String → Option PageData) :
    SysState → Option CrawlEv → SysState → Prop where
  | exitStop (s : SysState) (i : Nat) :
      s.ws[i]? = some .idle → shouldStop cfg s.st = true →
      StepR cfg web s none ⟨s.st, s.ws.set i .done⟩
  | exitEmpty (s : SysState) (i : Nat) (k : Nat) :
      s.ws[i]? = some .idle → shouldStop cfg s.st = false →
      getNext s.st = (none, k) →
      StepR cfg web s none ⟨{ s.st with qIndex := k }, s.ws.set i .done⟩
  | claimUrl (s : SysState) (i : Nat) (u : String) (k : Nat) :
      s.ws[i]? = some .idle → shouldStop cfg s.st = false →
      getNext s.st = (some u, k) →
      StepR cfg web s (some (.claim u))
        ⟨{ s.st with qIndex := k, visited := s.st.visited ++ [u] }, s.ws.set i (.fetching u)⟩
  | completeFetch (s : SysState) (i : Nat) (u : String) :
      s.ws[i]? = some (.fetching u) →
      StepR cfg web s (some (.complete u)) ⟨pageEffect cfg web u s.st, s.ws.set i .idle⟩

/-- Finite executions of the worker pool, collecting the emitted events. -/
inductive ExecR (cfg : CrawlConfig) (web : String → Option PageData) :
    SysState → List CrawlEv → SysState → Prop where
  | refl (s : SysState) : ExecR cfg web s [] s
  | step {s : SysState} {ev : Option CrawlEv} {s' : SysState} {evs : List CrawlEv}
      {s'' : SysState} :
      StepR cfg web s ev s' → ExecR cfg web s' evs s'' →
      ExecR cfg web s (ev.toList ++ evs) s''

/-- The URLs whose fetch began during a trace. -/
def claimedUrls (evs : List CrawlEv) : List String :=
  evs.filterMap (fun e => match e with | .claim u => some u | .complete _ => none)

/-- The fetch-completion (page parse) events of a trace. -/
def completedUrls (evs : List CrawlEv) : List String :=
  evs.filterMap (fun e => match e with | .complete u => some u | .claim _ => none)

def isFetchingW (w : WStatus) : Bool :=
  match w with
  | .fetching _ => true
  | _ => false

/-- The number of workers currently inside a fetch. -/
def fetchingCount (ws : List WStatus) : Nat := (ws.filter isFetchingW).length

/-- The Frontier queue discipline invariant: the pending sequence has no
duplicates and everything pending was recorded in the enqueued set. -/
def QueueInv (st : CrawlState) : Prop :=
  st.queue.Nodup ∧ ∀ u ∈ st.queue, u ∈ st.enqueued

/-- A (possibly empty) concatenation of percent-whitespace digraphs, i.e. a
string matched by `(?:20|09|0a|0d)*`. -/
def wsCodeRun : List Char → Bool
  | [] => true
  | a :: b :: rest => wsCodePair a b && wsCodeRun rest
  | _ => false

/-! ## General-purpose lemmas -/

theorem foldl_keep {σ α β : Type} (f : σ → α → σ) (g : σ → β)
    (h : ∀ s a, g (f s a) = g s) : ∀ (l : List α) (s : σ), g (List.foldl f s l) = g s := by
  intro l
  induction l with
  | nil => intro s; rfl
  | cons a t ih => intro s; rw [List.foldl_cons, ih, h]

theorem foldl_mono {σ α : Type} (f : σ → α → σ) (g : σ → Nat)
    (h : ∀ s a, g s ≤ g (f s a)) : ∀ (l : List α) (s : σ), g s ≤ g (List.foldl f s l) := by
  intro l
  induction l with
  | nil => intro s; exact Nat.le_refl _
  | cons a t ih => intro s; exact Nat.le_trans (h s a) (ih (f s a))

theorem foldl_subset {σ α : Type} (f : σ → α → σ) (g : σ → List String)
    (h : ∀ s a, g s ⊆ g (f s a)) :
    ∀ (l : List α) (s : σ), g s ⊆ g (List.foldl f s l) := by
  intro l
  induction l with
  | nil => intro s; exact fun x hx => hx
  | cons a t ih => intro s; exact fun x hx => ih (f s a) (h s a hx)

/-! ## Claim C6: the five `clean` examples -/

/-- C6.  The clean pipeline satisfies the five spec examples:
`clean("Email:info@example.com") = "info@example.com"`,
`clean("%20info@example.com") = "info@example.com"`,
`clean("20%info@example.com") = "info@example.com"`,
`clean("x@site..com")` is rejected, and `clean("a@b.c1")` is rejected
(the TLD `c1` fails the letters-only check). -/
theorem claim6_clean_examples :
    cleanEmail "Email:info@example.com" = some "info@example.com" ∧
    cleanEmail "%20info@example.com" = some "info@example.com" ∧
    cleanEmail "20%info@example.com" = some "info@example.com" ∧
    cleanEmail "x@site..com" = none ∧
    cleanEmail "a@b.c1" = none := by
  refine ⟨?_, ?_, ?_, ?_, ?_⟩ <;> rfl

/-! ## Claim C7: the percent-whitespace prefix strip (corrected) -/

/-- C7 counterexample.  The claim predicts that the entire leading run of
percent-encoded whitespace sequences is stripped, so
`clean("%20%20info@example.com")` would be `"info@example.com"`; the code's
regex `^%(?:20|09|0a|0d)+` matches only the first `%` plus following
digraphs, leaving `"%20info@example.com"`. -/
theorem claim7_counterexample :
    cleanEmail "%20%20info@example.com" = some "%20info@example.com" ∧
    cleanEmail "%20%20info@example.com" ≠ some "info@example.com" := by
  refine ⟨rfl, ?_⟩
  intro h
  rw [show cleanEmail "%20%20info@example.com" = some "%20info@example.com" from rfl] at h
  exact (by decide : ¬ (some "%20info@example.com" = some ("info@example.com" : String))) h

theorem takeWsCodes_append (n : Nat) :
    ∀ (codes rest : List Char), codes.length ≤ n → wsCodeRun codes = true →
    (∀ a b t, rest = a :: b :: t → wsCodePair a b = false) →
    takeWsCodes (codes ++ rest) = (codes, rest) := by
  induction n with
  | zero =>
    intro codes rest hlen _ hrest
    have hc : codes = [] := List.eq_nil_of_length_eq_zero (Nat.le_zero.mp hlen)
    subst hc
    match rest with
    | [] => rfl
    | [c] => rfl
    | a :: b :: t =>
      simp only [List.nil_append, takeWsCodes, hrest a b t rfl]
      simp
  | succ n ih =>
    intro codes rest hlen hrun hrest
    match codes with
    | [] =>
      match rest with
      | [] => rfl
      | [c] => rfl
      | a :: b :: t =>
        simp only [List.nil_append, takeWsCodes, hrest a b t rfl]
        simp
    | [a] => simp [wsCodeRun] at hrun
    | a :: b :: cs =>
      simp only [wsCodeRun, Bool.and_eq_true] at hrun
      have hcs : cs.length ≤ n := by
        simp only [List.length_cons] at hlen
        omega
      simp [List.cons_append, takeWsCodes, hrun.1, ih cs rest hcs hrun.2 hrest]

/-- C7 amended.  In step 5 of `clean`, for a local part beginning with `%`
followed by a non-empty run of whitespace digraphs (`20`, `09`, `0a`, `0d`,
any case) that is maximal (the remainder does not start with another
digraph), exactly that prefix — the single `%` plus the digraph run — is
stripped; a further full `%`-sequence in the remainder (as in `%20%20info`)
is not stripped. -/
theorem claim7_percent_strip (codes rest : List Char)
    (hrun : wsCodeRun codes = true) (hne : codes ≠ [])
    (hrest : ∀ a b t, rest = a :: b :: t → wsCodePair a b = false) :
    fix1Strip ('%' :: (codes ++ rest)) = rest := by
  simp only [fix1Strip, takeWsCodes_append codes.length codes rest (Nat.le_refl _) hrun hrest]
  simp [List.isEmpty_iff, hne]

/-- Witness for `claim7_percent_strip` at `codes = "20"`, `rest = "info"`. -/
theorem claim7_percent_strip_witness :
    fix1Strip ('%' :: (['2', '0'] ++ ['i', 'n', 'f', 'o'])) = ['i', 'n', 'f', 'o'] :=
  claim7_percent_strip ['2', '0'] ['i', 'n', 'f', 'o'] (by decide) (by decide)
    (by intro a b t h; cases h; decide)

/-! ## Claim C8: fetchPage returns "no content" exactly for unusable pages -/

theorem lowerList_eq_nil_iff (s : String) : lowerList s.data = [] ↔ s = "" := by
  constructor
  · intro h
    exact String.ext (List.map_eq_nil_iff.mp h)
  · intro h
    rw [h]
    rfl

/-- C8.  `fetchPage` is a total function (it never propagates an error: every
transport failure — DNS, TLS, reset, timeout, out-of-range status — is the
`transportError` case and yields no content), and for a delivered response it
returns no content exactly when the declared content-type is present but not
HTML-family, or the declared content length exceeds 2.5 MB, or the response
body is not a string. -/
theorem claim8_fetch_no_content_iff :
    fetchPage FetchOutcome.transportError = none ∧
    ∀ (ct : Option String) (len : Option Nat) (body : Option String),
      fetchPage (FetchOutcome.response ct len body) = none ↔
        ((ct.getD "" ≠ "" ∧ htmlFamilyCt (lowerList (ct.getD "").data) = false) ∨
         2500000 < len.getD 0 ∨ body = none) := by
  refine ⟨rfl, ?_⟩
  intro ct len body
  have hguard : ∀ (l : List Char) (p : Bool), ((!l.isEmpty) && !p) = true ↔ (l ≠ [] ∧ p = false) := by
    intro l p
    cases l <;> cases p <;> simp
  have hkey : (!(lowerList (ct.getD "").data).isEmpty &&
      !htmlFamilyCt (lowerList (ct.getD "").data)) = true ↔
      (ct.getD "" ≠ "" ∧ htmlFamilyCt (lowerList (ct.getD "").data) = false) := by
    rw [hguard]
    simp only [ne_eq]
    rw [not_congr (lowerList_eq_nil_iff (ct.getD ""))]
  simp only [fetchPage]
  split_ifs with h1 h2
  · simp only [hkey] at h1
    simp [h1]
  · simp only [hkey] at h1
    have : 2500000 < len.getD 0 := by omega
    simp [this]
  · simp only [hkey] at h1
    have h2' : ¬ 2500000 < len.getD 0 := by omega
    constructor
    · intro hb
      exact Or.inr (Or.inr hb)
    · intro h
      rcases h with h | h | h
      · exact absurd h h1
      · exact absurd h h2'
      · exact h

/-! ## Crawl-state lemmas -/

/-- What every synchronous phase of `parsePage` guarantees about the shared
state: it never touches `visited` or the queue cursor, it only grows the
email set, and it preserves the Frontier queue discipline. -/
def PhaseOk (st st' : CrawlState) : Prop :=
  st'.visited = st.visited ∧ st'.qIndex = st.qIndex ∧
  st.emails.length ≤ st'.emails.length ∧
  (QueueInv st → QueueInv st')

theorem phaseOk_refl (st : CrawlState) : PhaseOk st st :=
  ⟨rfl, rfl, Nat.le_refl _, fun h => h⟩

theorem phaseOk_trans {a b c : CrawlState} (h1 : PhaseOk a b) (h2 : PhaseOk b c) :
    PhaseOk a c :=
  ⟨h2.1.trans h1.1, h2.2.1.trans h1.2.1, Nat.le_trans h1.2.2.1 h2.2.2.1,
   fun h => h2.2.2.2 (h1.2.2.2 h)⟩

theorem foldl_rel {σ α : Type} (f : σ → α → σ) (R : σ → σ → Prop)
    (hrefl : ∀ s, R s s)
    (htrans : ∀ a b c, R a b → R b c → R a c)
    (hstep : ∀ s a, R s (f s a)) :
    ∀ (l : List α) (s : σ), R s (List.foldl f s l) := by
  intro l
  induction l with
  | nil => intro s; exact hrefl s
  | cons a t ih => intro s; exact htrans _ _ _ (hstep s a) (ih (f s a))

theorem storeEmail_phase (st : CrawlState) (c : String) : PhaseOk st (storeEmail st c) := by
  unfold storeEmail
  cases cleanEmail c with
  | none => exact phaseOk_refl st
  | some e =>
    by_cases h : e ∈ st.emails
    · simp only [h, if_true]
      exact phaseOk_refl st
    · simp only [h, if_false]
      refine ⟨rfl, rfl, ?_, fun hq => hq⟩
      simp

theorem storeMailto_phase (st : CrawlState) (href : String) :
    PhaseOk st (storeMailto st href) := by
  simp only [storeMailto]
  by_cases h : mailtoAddress href = ""
  · rw [if_pos h]
    exact phaseOk_refl st
  · rw [if_neg h]
    exact storeEmail_phase st _

theorem enqueue_phase (cfg : CrawlConfig) (st : CrawlState) (link : String) :
    PhaseOk st (enqueue cfg st link) := by
  unfold enqueue
  cases normalizeUrl link (some cfg.baseUrl) with
  | none => exact phaseOk_refl st
  | some norm =>
    dsimp only
    by_cases h1 : isSameDomain cfg norm = false
    · rw [if_pos h1]
      exact phaseOk_refl st
    · rw [if_neg h1]
      by_cases h2 : norm ∈ st.visited
      · rw [if_pos h2]
        exact phaseOk_refl st
      · rw [if_neg h2]
        by_cases h3 : norm ∈ st.enqueued
        · rw [if_pos h3]
          exact phaseOk_refl st
        · rw [if_neg h3]
          refine ⟨rfl, rfl, Nat.le_refl _, ?_⟩
          rintro ⟨hnd, hsub⟩
          have hnq : norm ∉ st.queue := fun hq => h3 (hsub norm hq)
          constructor
          · simp only [List.nodup_append, List.nodup_cons, List.nodup_nil,
              List.disjoint_singleton]
            exact ⟨hnd, by simp, hnq⟩
          · intro u hu
            rcases List.mem_append.mp hu with hu | hu
            · exact List.mem_cons_of_mem _ (hsub u hu)
            · simp only [List.mem_singleton] at hu
              subst hu
              exact List.mem_cons_self _ _

theorem foldl_storeEmail_phase (st : CrawlState) (l : List String) :
    PhaseOk st (List.foldl storeEmail st l) :=
  foldl_rel storeEmail PhaseOk phaseOk_refl (fun _ _ _ => phaseOk_trans)
    storeEmail_phase l st

theorem textLoop_phase (cfg : CrawlConfig) :
    ∀ (parts : List (List String)) (st : CrawlState), PhaseOk st (textLoop cfg st parts) := by
  intro parts
  induction parts with
  | nil => intro st; exact phaseOk_refl st
  | cons part rest ih =>
    intro st
    simp only [textLoop]
    by_cases h : shouldStop cfg (List.foldl storeEmail st part) = true
    · rw [if_pos h]
      exact foldl_storeEmail_phase st part
    · rw [if_neg h]
      exact phaseOk_trans (foldl_storeEmail_phase st part) (ih _)

theorem enqueueLinks_phase (cfg : CrawlConfig) (st : CrawlState) (links : List String) :
    PhaseOk st (enqueueLinks cfg st links) := by
  unfold enqueueLinks
  refine foldl_rel _ PhaseOk phaseOk_refl (fun _ _ _ => phaseOk_trans) ?_ links st
  intro s l
  by_cases h : l = "" ∨ skippedHref l = true
  · rw [if_pos h]
    exact phaseOk_refl s
  · rw [if_neg h]
    exact enqueue_phase cfg s l

theorem parsePageM_phase (cfg : CrawlConfig) (pg : PageData) (st : CrawlState) :
    PhaseOk st (parsePageM cfg pg st) := by
  simp only [parsePageM]
  have h1 := foldl_rel storeMailto PhaseOk phaseOk_refl (fun _ _ _ => phaseOk_trans)
    storeMailto_phase pg.mailtoHrefs st
  split_ifs with a1 a2 a3
  · exact h1
  · exact phaseOk_trans h1 (foldl_storeEmail_phase _ _)
  · exact phaseOk_trans h1 (phaseOk_trans (foldl_storeEmail_phase _ _) (textLoop_phase cfg _ _))
  · exact phaseOk_trans h1 (phaseOk_trans (foldl_storeEmail_phase _ _)
      (phaseOk_trans (textLoop_phase cfg _ _) (enqueueLinks_phase cfg _ _)))

theorem pageEffect_phase (cfg : CrawlConfig) (web : String → Option PageData)
    (url : String) (st : CrawlState) : PhaseOk st (pageEffect cfg web url st) := by
  unfold pageEffect
  cases web url with
  | none => exact phaseOk_refl st
  | some pg => exact parsePageM_phase cfg pg st

/-! ## getNext lemmas -/

theorem getNextAux_some (v : List String) :
    ∀ (l : List String) (u : String) (k : Nat),
      getNextAux v l = (some u, k) → u ∉ v ∧ u ≠ "" := by
  intro l
  induction l with
  | nil => intro u k h; exact absurd (congrArg Prod.fst h) (by simp [getNextAux])
  | cons x rest ih =>
    intro u k h
    unfold getNextAux at h
    by_cases hx : x = "" ∨ x ∈ v
    · simp only [hx, if_true] at h
      have h1 : getNextAux v rest = ((getNextAux v rest).1, (getNextAux v rest).2) := rfl
      have := Prod.mk.injEq .. ▸ h
      rcases Prod.mk.injEq .. ▸ h with ⟨ha, _⟩
      exact ih u (getNextAux v rest).2 (by rw [← ha])
    · simp only [hx, if_false] at h
      rcases Prod.mk.injEq .. ▸ h with ⟨ha, _⟩
      cases ha
      push_neg at hx
      exact ⟨hx.2, hx.1⟩

theorem getNext_some (st : CrawlState) (u : String) (k : Nat)
    (h : getNext st = (some u, k)) : u ∉ st.visited ∧ u ≠ "" := by
  unfold getNext at h
  rcases Prod.mk.injEq .. ▸ h with ⟨ha, _⟩
  exact getNextAux_some st.visited _ u _ (by rw [← ha])

/-! ## Step lemmas -/

theorem length_filter_set (p : WStatus → Bool) :
    ∀ (ws : List WStatus) (i : Nat) (a b : WStatus), ws[i]? = some a →
      (ws.set i b).countP p + (if p a then 1 else 0) = ws.countP p + (if p b then 1 else 0) := by
  intro ws
  induction ws with
  | nil => intro i a b h; simp at h
  | cons w t ih =>
    intro i a b h
    cases i with
    | zero =>
      simp only [List.getElem?_cons_zero, Option.some.injEq] at h
      subst h
      simp only [List.set_cons_zero, List.countP_cons]
      omega
    | succ j =>
      simp only [List.getElem?_cons_succ] at h
      simp only [List.set_cons_succ, List.countP_cons]
      have := ih j a b h
      omega

theorem fetchingCount_eq_countP (ws : List WStatus) :
    fetchingCount ws = ws.countP isFetchingW := by
  unfold fetchingCount
  rw [List.countP_eq_length_filter]

theorem step_shape {cfg : CrawlConfig} {web : String → Option PageData}
    {s : SysState} {ev : Option CrawlEv} {s' : SysState}
    (h : StepR cfg web s ev s') :
    s.st.visited.length ≤ s'.st.visited.length ∧
    s.st.emails.length ≤ s'.st.emails.length ∧
    s'.ws.length = s.ws.length ∧
    (∀ u, u ∈ s.st.visited → u ∈ s'.st.visited) := by
  cases h with
  | exitStop i h1 h2 =>
    exact ⟨Nat.le_refl _, Nat.le_refl _, List.length_set .., fun u hu => hu⟩
  | exitEmpty i k h1 h2 h3 =>
    exact ⟨Nat.le_refl _, Nat.le_refl _, List.length_set .., fun u hu => hu⟩
  | claimUrl i u k h1 h2 h3 =>
    refine ⟨?_, Nat.le_refl _, List.length_set .., fun v hv => List.mem_append_left _ hv⟩
    simp
  | completeFetch i u h1 =>
    have hp := pageEffect_phase cfg web u s.st
    exact ⟨hp.1 ▸ Nat.le_refl _, hp.2.2.1, List.length_set .., fun v hv => hp.1 ▸ hv⟩

theorem step_stop_persist {cfg : CrawlConfig} {web : String → Option PageData}
    {s : SysState} {ev : Option CrawlEv} {s' : SysState}
    (h : StepR cfg web s ev s') (hs : shouldStop cfg s.st = true) :
    shouldStop cfg s'.st = true := by
  have hm := step_shape h
  simp only [shouldStop, Bool.or_eq_true, decide_eq_true_eq] at hs ⊢
  rcases hs with hs | hs
  · exact Or.inl (Nat.le_trans hs hm.2.1)
  · exact Or.inr (Nat.le_trans hs hm.1)

theorem exec_stop_persist {cfg : CrawlConfig} {web : String → Option PageData}
    {s : SysState} {evs : List CrawlEv} {s' : SysState}
    (h : ExecR cfg web s evs s') (hs : shouldStop cfg s.st = true) :
    shouldStop cfg s'.st = true := by
  induction h with
  | refl s => exact hs
  | step hstep _ ih => exact ih (step_stop_persist hstep hs)

theorem exec_visited_sub {cfg : CrawlConfig} {web : String → Option PageData}
    {s : SysState} {evs : List CrawlEv} {s' : SysState}
    (h : ExecR cfg web s evs s') : ∀ u, u ∈ s.st.visited → u ∈ s'.st.visited := by
  induction h with
  | refl s => exact fun u hu => hu
  | step hstep _ ih => exact fun u hu => ih u ((step_shape hstep).2.2.2 u hu)

theorem claimedUrls_claim (u : String) (evs : List CrawlEv) :
    claimedUrls ((some (CrawlEv.claim u)).toList ++ evs) = u :: claimedUrls evs := by
  simp [claimedUrls]

theorem claimedUrls_complete (u : String) (evs : List CrawlEv) :
    claimedUrls ((some (CrawlEv.complete u)).toList ++ evs) = claimedUrls evs := by
  simp [claimedUrls]

theorem claimedUrls_none (evs : List CrawlEv) :
    claimedUrls ((none : Option CrawlEv).toList ++ evs) = claimedUrls evs := rfl

theorem completedUrls_claim (u : String) (evs : List CrawlEv) :
    completedUrls ((some (CrawlEv.claim u)).toList ++ evs) = completedUrls evs := by
  simp [completedUrls]

theorem completedUrls_complete (u : String) (evs : List CrawlEv) :
    completedUrls ((some (CrawlEv.complete u)).toList ++ evs) = u :: completedUrls evs := by
  simp [completedUrls]

theorem completedUrls_none (evs : List CrawlEv) :
    completedUrls ((none : Option CrawlEv).toList ++ evs) = completedUrls evs := rfl

theorem exec_claims_fresh {cfg : CrawlConfig} {web : String → Option PageData}
    {s : SysState} {evs : List CrawlEv} {s' : SysState}
    (h : ExecR cfg web s evs s') :
    (claimedUrls evs).Nodup ∧
    ∀ u ∈ claimedUrls evs, u ∉ s.st.visited ∧ u ∈ s'.st.visited := by
  induction h with
  | refl s => simp [claimedUrls]
  | @step s1 ev s2 evs2 s3 hstep hexec ih =>
    cases hstep with
    | exitStop i h1 h2 => rw [claimedUrls_none]; exact ih
    | exitEmpty i k h1 h2 h3 => rw [claimedUrls_none]; exact ih
    | claimUrl i u k h1 h2 h3 =>
      rw [claimedUrls_claim]
      have hfresh := getNext_some s1.st u k h3
      refine ⟨List.nodup_cons.mpr ⟨?_, ih.1⟩, ?_⟩
      · intro hu
        exact (ih.2 u hu).1 (by simp)
      · intro v hv
        rcases List.mem_cons.mp hv with hv | hv
        · subst hv
          exact ⟨hfresh.1, exec_visited_sub hexec v (by simp)⟩
        · have hih := ih.2 v hv
          exact ⟨fun hvv => hih.1 (by simp [hvv]), hih.2⟩
    | completeFetch i u h1 =>
      rw [claimedUrls_complete]
      have hp := pageEffect_phase cfg web u s1.st
      refine ⟨ih.1, ?_⟩
      intro v hv
      have hih := ih.2 v hv
      refine ⟨fun hvv => hih.1 ?_, hih.2⟩
      show v ∈ (pageEffect cfg web u s1.st).visited
      rw [hp.1]
      exact hvv

theorem step_queueInv {cfg : CrawlConfig} {web : String → Option PageData}
    {s : SysState} {ev : Option CrawlEv} {s' : SysState}
    (h : StepR cfg web s ev s') (hq : QueueInv s.st) : QueueInv s'.st := by
  cases h with
  | exitStop i h1 h2 => exact hq
  | exitEmpty i k h1 h2 h3 => exact hq
  | claimUrl i u k h1 h2 h3 => exact hq
  | completeFetch i u h1 => exact (pageEffect_phase cfg web u _).2.2.2 hq

theorem exec_after_stop {cfg : CrawlConfig} {web : String → Option PageData}
    {s : SysState} {evs : List CrawlEv} {s' : SysState}
    (h : ExecR cfg web s evs s') :
    shouldStop cfg s.st = true →
    (completedUrls evs).length + fetchingCount s'.ws ≤ fetchingCount s.ws ∧
    (completedUrls evs = [] → s'.st.emails = s.st.emails) := by
  induction h with
  | refl s => intro _; simp [completedUrls]
  | @step s1 ev s2 evs2 s3 hstep hexec ih =>
    intro hstop
    have IH := ih (step_stop_persist hstep hstop)
    cases hstep with
    | exitStop i h1 h2 =>
      rw [completedUrls_none]
      have hcnt := length_filter_set isFetchingW s1.ws i WStatus.idle WStatus.done h1
      simp only [isFetchingW] at hcnt
      simp only [fetchingCount_eq_countP] at IH ⊢
      simp at hcnt
      refine ⟨by omega, IH.2⟩
    | exitEmpty i k h1 h2 h3 => rw [hstop] at h2; cases h2
    | claimUrl i u k h1 h2 h3 => rw [hstop] at h2; cases h2
    | completeFetch i u h1 =>
      rw [completedUrls_complete]
      have hcnt := length_filter_set isFetchingW s1.ws i (WStatus.fetching u) WStatus.idle h1
      simp only [isFetchingW] at hcnt
      simp at hcnt
      simp only [fetchingCount_eq_countP] at IH ⊢
      constructor
      · simp only [List.length_cons]
        omega
      · intro hc
        cases hc

/-! ## Claim C1: bounded overshoot past the stop condition -/

/-- C1.  Once the stop condition holds, every further execution performs at
most `concurrency` fetch-completion (page-contribution) steps — exactly the
fetches in flight at that moment, since no new URL is claimed once
`shouldStop` is true and `shouldStop` is monotone — and the validated-email
set can change only in such steps; so the final `emailsFound` exceeds the
set's size at the moment the stop condition fired only via those at most
`concurrency` in-flight pages. -/
theorem claim1_overshoot_bound (cfg : CrawlConfig) (web : String → Option PageData)
    {s : SysState} {evs : List CrawlEv} {s' : SysState}
    (hconc : s.ws.length = cfg.concurrency)
    (hstop : shouldStop cfg s.st = true)
    (hex : ExecR cfg web s evs s') :
    (completedUrls evs).length ≤ cfg.concurrency ∧
    (completedUrls evs = [] → s'.st.emails = s.st.emails) := by
  have h := exec_after_stop hex hstop
  refine ⟨?_, h.2⟩
  have hfc : fetchingCount s.ws ≤ s.ws.length := by
    unfold fetchingCount
    exact List.length_filter_le _ _
  omega

/-- Witness for `claim1_overshoot_bound`: one worker, already past the email
budget, with one in-flight fetch that completes on a page with no content. -/
theorem claim1_overshoot_bound_witness :
    (completedUrls [CrawlEv.complete "https://e.com/"]).length ≤ 1 ∧
    (completedUrls [CrawlEv.complete "https://e.com/"] = [] →
      (pageEffect ⟨"https://e.com/", "e.com", 1, 1, 1⟩ (fun _ => none) "https://e.com/"
        ⟨[], 0, ["https://e.com/"], ["https://e.com/"], ["a@b.cd"]⟩).emails =
      ["a@b.cd"]) :=
  claim1_overshoot_bound ⟨"https://e.com/", "e.com", 1, 1, 1⟩ (fun _ => none)
    (s := ⟨⟨[], 0, ["https://e.com/"], ["https://e.com/"], ["a@b.cd"]⟩,
           [WStatus.fetching "https://e.com/"]⟩)
    rfl (by decide)
    (ExecR.step
      (StepR.completeFetch
        ⟨⟨[], 0, ["https://e.com/"], ["https://e.com/"], ["a@b.cd"]⟩,
         [WStatus.fetching "https://e.com/"]⟩ 0 "https://e.com/" rfl)
      (ExecR.refl _))

/-! ## Claim C3: no URL is ever fetched twice -/

/-- C3.  Under the cooperative small-step semantics (each mutation is one
synchronous step between suspension points): `getNextUrl` never yields a URL
already in the visited set; a worker's claim step marks the URL visited in
the same synchronous step in which its fetch begins (mark-then-fetch); and
consequently the URLs claimed for fetching along any execution are pairwise
distinct — no URL is fetched twice, by the same or by two workers. -/
theorem claim3_no_double_fetch (cfg : CrawlConfig) (web : String → Option PageData) :
    (∀ (st : CrawlState) (u : String) (k : Nat),
       getNext st = (some u, k) → u ∉ st.visited) ∧
    (∀ {s : SysState} {ev : Option CrawlEv} {s' : SysState} (u : String),
       StepR cfg web s ev s' → ev = some (CrawlEv.claim u) → u ∈ s'.st.visited) ∧
    (∀ {s : SysState} {evs : List CrawlEv} {s' : SysState},
       ExecR cfg web s evs s' → (claimedUrls evs).Nodup) := by
  refine ⟨?_, ?_, ?_⟩
  · intro st u k h
    exact (getNext_some st u k h).1
  · intro s ev s' u hstep hev
    cases hstep with
    | exitStop i h1 h2 => cases hev
    | exitEmpty i k h1 h2 h3 => cases hev
    | claimUrl i v k h1 h2 h3 =>
      have : v = u := by
        injection hev with hev'
        injection hev'
      subst this
      simp
    | completeFetch i v h1 => cases hev
  · intro s evs s' hex
    exact (exec_claims_fresh hex).1

/-- Witness for `claim3_no_double_fetch`: a single worker claims the seed
URL of a one-element queue; the claim is fresh and the trace is
duplicate-free. -/
theorem claim3_no_double_fetch_witness :
    ("https://e.com/" ∉ ([] : List String)) ∧
    (claimedUrls [CrawlEv.claim "https://e.com/"]).Nodup :=
  ⟨(claim3_no_double_fetch ⟨"https://e.com/", "e.com", 2, 2, 1⟩ (fun _ => none)).1
      ⟨["https://e.com/"], 0, [], ["https://e.com/"], []⟩ "https://e.com/" 1 (by decide),
   (claim3_no_double_fetch ⟨"https://e.com/", "e.com", 2, 2, 1⟩ (fun _ => none)).2.2
      (ExecR.step
        (StepR.claimUrl ⟨⟨["https://e.com/"], 0, [], ["https://e.com/"], []⟩, [WStatus.idle]⟩
          0 "https://e.com/" 1 rfl (by decide) (by decide))
        (ExecR.refl _))⟩

/-! ## Claim C4: pagesScanned never exceeds maxPages -/

/-- C4.  In every execution and every interleaving of workers, the visited
set (whose size is reported as `pagesScanned`) never grows beyond
`maxPages`: a URL is added to `visited` only in a claim step whose guard
checks `shouldStop` — hence `visited.length < maxPages` — in the same
synchronous step, and no other step touches `visited`. -/
theorem claim4_pages_bound (cfg : CrawlConfig) (web : String → Option PageData)
    {s : SysState} {evs : List CrawlEv} {s' : SysState}
    (hex : ExecR cfg web s evs s') :
    s.st.visited.length ≤ cfg.maxPages → s'.st.visited.length ≤ cfg.maxPages := by
  induction hex with
  | refl s => exact fun h => h
  | @step s1 ev s2 evs2 s3 hstep hexec ih =>
    intro h0
    apply ih
    cases hstep with
    | exitStop i h1 h2 => exact h0
    | exitEmpty i k h1 h2 h3 => exact h0
    | claimUrl i u k h1 h2 h3 =>
      simp only [shouldStop, Bool.or_eq_false_iff, decide_eq_false_iff_not, not_le] at h2
      show (s1.st.visited ++ [u]).length ≤ cfg.maxPages
      simp only [List.length_append, List.length_singleton]
      omega
    | completeFetch i u h1 =>
      show (pageEffect cfg web u s1.st).visited.length ≤ cfg.maxPages
      rw [(pageEffect_phase cfg web u s1.st).1]
      exact h0

/-- Witness for `claim4_pages_bound`: a single worker claims the seed URL
(filling the one-page budget) and the bound still holds. -/
theorem claim4_pages_bound_witness :
    (["https://e.com/"] : List String).length ≤ 1 :=
  claim4_pages_bound ⟨"https://e.com/", "e.com", 1, 2, 1⟩ (fun _ => none)
    (ExecR.step
      (StepR.claimUrl ⟨⟨["https://e.com/"], 0, [], ["https://e.com/"], []⟩, [WStatus.idle]⟩
        0 "https://e.com/" 1 rfl (by decide) (by decide))
      (ExecR.refl _))
    (by decide)

/-! ## Claim C2: Frontier enqueue discipline -/

/-- C2.  `enqueue` never appends a URL whose hostname differs from the base
domain (every newly appended URL parses with host equal to `baseDomain`),
never appends a URL in the visited set, and never appends a URL already
enqueued; moreover the queue-discipline invariant — the pending sequence is
duplicate-free (each normalized URL is appended at most once over the
lifetime of a crawl) and contained in the enqueued set — is preserved by
every execution. -/
theorem claim2_frontier (cfg : CrawlConfig) (web : String → Option PageData) :
    (∀ (st : CrawlState) (link u : String), u ∈ (enqueue cfg st link).queue →
       u ∈ st.queue ∨
       ((urlParse u).map UrlRec.host = some cfg.baseDomain ∧
        u ∉ st.visited ∧ u ∉ st.enqueued)) ∧
    (∀ (s : SysState) (evs : List CrawlEv) (s' : SysState),
       ExecR cfg web s evs s' → QueueInv s.st → QueueInv s'.st) := by
  constructor
  · intro st link u hu
    unfold enqueue at hu
    cases hn : normalizeUrl link (some cfg.baseUrl) with
    | none => rw [hn] at hu; exact Or.inl hu
    | some norm =>
      rw [hn] at hu
      dsimp only at hu
      by_cases h1 : isSameDomain cfg norm = false
      · rw [if_pos h1] at hu; exact Or.inl hu
      · rw [if_neg h1] at hu
        by_cases h2 : norm ∈ st.visited
        · rw [if_pos h2] at hu; exact Or.inl hu
        · rw [if_neg h2] at hu
          by_cases h3 : norm ∈ st.enqueued
          · rw [if_pos h3] at hu; exact Or.inl hu
          · rw [if_neg h3] at hu
            rcases List.mem_append.mp hu with hu | hu
            · exact Or.inl hu
            · simp only [List.mem_singleton] at hu
              subst hu
              refine Or.inr ⟨?_, h2, h3⟩
              have h1' : isSameDomain cfg u = true := by
                cases hb : isSameDomain cfg u
                · exact absurd hb h1
                · rfl
              unfold isSameDomain at h1'
              cases hp : urlParse u with
              | none => rw [hp] at h1'; cases h1'
              | some v =>
                rw [hp] at h1'
                simp only [decide_eq_true_eq] at h1'
                simp [hp, h1']
  · intro s evs s' hex
    induction hex with
    | refl s => exact fun h => h
    | step hstep _ ih => exact fun h => ih (step_queueInv hstep h)

/-- Witness for `claim2_frontier`: enqueueing the link `/about` into an
empty frontier appends the same-domain normalized URL
`https://e.com/about`, and the queue invariant is preserved by the empty
execution. -/
theorem claim2_frontier_witness :
    (("https://e.com/about" ∈ ([] : List String)) ∨
      ((urlParse "https://e.com/about").map UrlRec.host = some "e.com" ∧
       "https://e.com/about" ∉ ([] : List String) ∧
       "https://e.com/about" ∉ ([] : List String))) ∧
    QueueInv ⟨[], 0, [], [], []⟩ :=
  ⟨(claim2_frontier ⟨"https://e.com/", "e.com", 2, 2, 1⟩ (fun _ => none)).1
      ⟨[], 0, [], [], []⟩ "/about" "https://e.com/about" (by decide),
   (claim2_frontier ⟨"https://e.com/", "e.com", 2, 2, 1⟩ (fun _ => none)).2
      ⟨⟨[], 0, [], [], []⟩, [WStatus.idle]⟩ [] ⟨⟨[], 0, [], [], []⟩, [WStatus.idle]⟩
      (ExecR.refl _) ⟨List.nodup_nil, by intro u hu; cases hu⟩⟩

/-! ## Claim C10: normalize preserves the query string -/

theorem serialize_query_inj (sch hst : String) (port : Option Nat) (path : List String)
    (q1 q2 : Option String)
    (h : serializeUrl ⟨sch, hst, port, path, q1, none⟩ =
         serializeUrl ⟨sch, hst, port, path, q2, none⟩) :
    q1 = q2 := by
  have hd := congrArg String.data h
  dsimp only [serializeUrl] at hd
  rw [List.append_nil, List.append_nil] at hd
  have hd3 := List.append_cancel_left hd
  cases q1 with
  | none =>
    cases q2 with
    | none => rfl
    | some b => cases hd3
  | some a =>
    cases q2 with
    | none => cases hd3
    | some b =>
      injection hd3 with _ hab
      rw [String.ext hab]

theorem normRec_query_update (p : UrlRec) (q : Option String) :
    normRec { p with query := q } = { normRec p with query := q } := rfl

theorem normRec_frag_none (p : UrlRec) : (normRec p).frag = none := rfl

/-- C10.  `normalize` preserves the query string: two syntactically valid
URLs that agree in every component except the query normalize to distinct
strings, so the Frontier sees two distinct dedup keys and (when both are
same-domain and fresh) enqueues and may visit both. -/
theorem claim10_query_distinct (base : Option String) (s1 s2 : String) (p1 p2 : UrlRec)
    (h1 : urlParse s1 = some p1) (h2 : urlParse s2 = some p2)
    (hagree : p2 = { p1 with query := p2.query })
    (hq : p1.query ≠ p2.query) :
    (normalizeUrl s1 base = some (serializeUrl (normRec p1)) ∧
     normalizeUrl s2 base = some (serializeUrl (normRec p2)) ∧
     normalizeUrl s1 base ≠ normalizeUrl s2 base) ∧
    (∀ (cfg : CrawlConfig) (st : CrawlState) (n1 n2 : String),
       normalizeUrl s1 (some cfg.baseUrl) = some n1 →
       normalizeUrl s2 (some cfg.baseUrl) = some n2 →
       isSameDomain cfg n1 = true → isSameDomain cfg n2 = true →
       n1 ∉ st.visited → n1 ∉ st.enqueued → n2 ∉ st.visited → n2 ∉ st.enqueued →
       n1 ∈ (enqueue cfg (enqueue cfg st s1) s2).queue ∧
       n2 ∈ (enqueue cfg (enqueue cfg st s1) s2).queue) := by
  have hser : serializeUrl (normRec p1) ≠ serializeUrl (normRec p2) := by
    intro hcontra
    apply hq
    have hp2 : normRec p2 = { normRec p1 with query := p2.query } := by
      rw [hagree]
      exact normRec_query_update p1 p2.query
    have hp1 : normRec p1 = { normRec p1 with query := p1.query, frag := none } := rfl
    rw [hp2] at hcontra
    have : serializeUrl { normRec p1 with query := p1.query, frag := none } =
        serializeUrl { normRec p1 with query := p2.query, frag := none } := hcontra
    exact serialize_query_inj _ _ _ _ _ _ this
  constructor
  · refine ⟨by simp [normalizeUrl, jsURL, h1], by simp [normalizeUrl, jsURL, h2], ?_⟩
    simp only [normalizeUrl, jsURL, h1, h2]
    intro hcontra
    exact hser (Option.some.injEq .. ▸ hcontra)
  · intro cfg st n1 n2 hn1 hn2 hsd1 hsd2 hv1 he1 hv2 he2
    have e1 : normalizeUrl s1 (some cfg.baseUrl) = some (serializeUrl (normRec p1)) := by
      simp [normalizeUrl, jsURL, h1]
    have e2 : normalizeUrl s2 (some cfg.baseUrl) = some (serializeUrl (normRec p2)) := by
      simp [normalizeUrl, jsURL, h2]
    have hn1' : n1 = serializeUrl (normRec p1) := by
      rw [hn1] at e1
      exact Option.some_inj.mp e1
    have hn2' : n2 = serializeUrl (normRec p2) := by
      rw [hn2] at e2
      exact Option.some_inj.mp e2
    have hne : n2 ≠ n1 := by
      rw [hn1', hn2']
      exact fun hcc => hser hcc.symm
    have hq1 : enqueue cfg st s1 =
        { st with enqueued := n1 :: st.enqueued, queue := st.queue ++ [n1] } := by
      unfold enqueue
      rw [hn1]
      dsimp only
      rw [if_neg (by simp [hsd1]), if_neg hv1, if_neg he1]
    have hq2 : enqueue cfg (enqueue cfg st s1) s2 =
        { st with enqueued := n2 :: n1 :: st.enqueued,
                  queue := (st.queue ++ [n1]) ++ [n2] } := by
      rw [hq1]
      unfold enqueue
      rw [hn2]
      dsimp only
      rw [if_neg (by simp [hsd2]), if_neg hv2,
        if_neg (by
          intro hmem
          rcases List.mem_cons.mp hmem with hmem | hmem
          · exact hne hmem
          · exact he2 hmem)]
    rw [hq2]
    constructor
    · simp
    · simp

/-- Witness for `claim10_query_distinct`: `https://e.com/p?a=1` and
`https://e.com/p?a=2` normalize to distinct keys and are both enqueued. -/
theorem claim10_query_distinct_witness :
    (normalizeUrl "https://e.com/p?a=1" none ≠ normalizeUrl "https://e.com/p?a=2" none) ∧
    ("https://e.com/p?a=1" ∈
      (enqueue ⟨"https://e.com/", "e.com", 2, 2, 1⟩
        (enqueue ⟨"https://e.com/", "e.com", 2, 2, 1⟩ ⟨[], 0, [], [], []⟩
          "https://e.com/p?a=1") "https://e.com/p?a=2").queue ∧
     "https://e.com/p?a=2" ∈
      (enqueue ⟨"https://e.com/", "e.com", 2, 2, 1⟩
        (enqueue ⟨"https://e.com/", "e.com", 2, 2, 1⟩ ⟨[], 0, [], [], []⟩
          "https://e.com/p?a=1") "https://e.com/p?a=2").queue) := by
  have h := claim10_query_distinct none "https://e.com/p?a=1" "https://e.com/p?a=2"
    ⟨"https", "e.com", none, ["p"], some "a=1", none⟩
    ⟨"https", "e.com", none, ["p"], some "a=2", none⟩
    (by decide) (by decide) rfl (by decide)
  refine ⟨h.1.2.2, ?_⟩
  exact h.2 ⟨"https://e.com/", "e.com", 2, 2, 1⟩ ⟨[], 0, [], [], []⟩
    "https://e.com/p?a=1" "https://e.com/p?a=2"
    (by decide) (by decide) (by decide) (by decide)
    (by decide) (by decide) (by decide) (by decide)

/-! ## Claim C9: toBaseUrl always yields an http(s) origin with trailing slash -/

theorem spanP_cons_pos (p : Char → Bool) (c : Char) (l : List Char) (h : p c = true) :
    spanP p (c :: l) = (c :: (spanP p l).1, (spanP p l).2) := by
  simp [spanP, h]

theorem spanP_cons_neg (p : Char → Bool) (c : Char) (l : List Char) (h : p c = false) :
    spanP p (c :: l) = ([], c :: l) := by
  simp [spanP, h]

theorem spanP_all_pos (p : Char → Bool) :
    ∀ (xs ys : List Char), (∀ c ∈ xs, p c = true) →
      spanP p (xs ++ ys) = (xs ++ (spanP p ys).1, (spanP p ys).2) := by
  intro xs
  induction xs with
  | nil => intro ys _; rfl
  | cons a l ih =>
    intro ys hall
    rw [List.cons_append, spanP_cons_pos p a _ (hall a (by simp)),
      ih ys (fun c hc => hall c (by simp [hc]))]
    rfl

theorem dropWhile_append_cases (p : Char → Bool) (xs ys : List Char) :
    (xs ++ ys).dropWhile p =
      if (xs.dropWhile p).isEmpty then ys.dropWhile p else xs.dropWhile p ++ ys := by
  induction xs with
  | nil => simp
  | cons a l ih =>
    by_cases h : p a = true
    · simp [List.dropWhile_cons, h, ih]
    · have hpa : p a = false := by rw [Bool.not_eq_true] at h; exact h
      simp [List.dropWhile_cons, hpa]

theorem trim_https_prepend (t : List Char) :
    ∃ t1, trimChars (httpsSlashesPat ++ t) = httpsSlashesPat ++ t1 := by
  unfold trimChars trimLeftChars trimRightChars
  have hleft : (httpsSlashesPat ++ t).dropWhile isWsChar = httpsSlashesPat ++ t := by
    show ('h' :: _).dropWhile isWsChar = _
    rw [List.dropWhile_cons, if_neg (by decide)]
    rfl
  rw [hleft, List.reverse_append, dropWhile_append_cases]
  by_cases hcase : (t.reverse.dropWhile isWsChar).isEmpty
  · rw [if_pos hcase]
    have hp : httpsSlashesPat.reverse.dropWhile isWsChar = httpsSlashesPat.reverse := by decide
    rw [hp, List.reverse_reverse]
    exact ⟨[], by rw [List.append_nil]⟩
  · rw [if_neg hcase, List.reverse_append, List.reverse_reverse]
    exact ⟨(t.reverse.dropWhile isWsChar).reverse, rfl⟩

theorem parseScheme_https (t : List Char) :
    parseScheme (httpsSlashesPat ++ t) = some ("https", '/' :: '/' :: t) := by
  have h1 : httpsSlashesPat ++ t =
      'h' :: 't' :: 't' :: 'p' :: 's' :: ':' :: '/' :: '/' :: t := rfl
  have h2 : spanP isSchemeChar ('h' :: 't' :: 't' :: 'p' :: 's' :: ':' :: '/' :: '/' :: t) =
      (['h', 't', 't', 'p', 's'], ':' :: '/' :: '/' :: t) := by
    rw [spanP_cons_pos _ _ _ (by decide), spanP_cons_pos _ _ _ (by decide),
      spanP_cons_pos _ _ _ (by decide), spanP_cons_pos _ _ _ (by decide),
      spanP_cons_pos _ _ _ (by decide), spanP_cons_neg _ _ _ (by decide)]
  rw [h1]
  simp only [parseScheme, h2]
  rw [if_neg (by decide), if_pos (by decide)]

theorem preprocess_https_prepend (t cs : List Char)
    (h : preprocessUrl ⟨httpsSlashesPat ++ t⟩ = some cs) :
    ∃ t2, cs = httpsSlashesPat ++ t2 := by
  unfold preprocessUrl at h
  dsimp only at h
  obtain ⟨t1, ht1⟩ := trim_https_prepend t
  rw [ht1] at h
  split at h
  · rw [List.filter_append] at h
    have hcs := (Option.some_inj.mp h).symm
    exact ⟨_, by rw [hcs]; congr 1⟩
  · cases h

theorem urlParseCore_https (t2 : List Char) (u : UrlRec)
    (h : urlParseCore (httpsSlashesPat ++ t2) = some u) : u.scheme = "https" := by
  unfold urlParseCore at h
  rw [parseScheme_https] at h
  dsimp only at h
  rw [show slashSlash ('/' :: '/' :: t2) = some t2 from rfl] at h
  dsimp only at h
  cases hauth : parseAuthority t2 with
  | none => rw [hauth] at h; cases h
  | some trip =>
    rw [hauth] at h
    obtain ⟨hst, port, r3⟩ := trip
    dsimp only at h
    cases hfr : parseFrag (parseQuery (parsePath r3).2).2 with
    | none => rw [hfr] at h; cases h
    | some fr =>
      rw [hfr] at h
      dsimp only at h
      injection h with h'
      rw [← h']

theorem urlParse_https_prepend (t : List Char) (u : UrlRec)
    (h : urlParse ⟨httpsSlashesPat ++ t⟩ = some u) : u.scheme = "https" := by
  unfold urlParse at h
  cases hpre : preprocessUrl ⟨httpsSlashesPat ++ t⟩ with
  | none => rw [hpre] at h; cases h
  | some cs =>
    rw [hpre] at h
    obtain ⟨t2, ht2⟩ := preprocess_https_prepend t cs hpre
    subst ht2
    exact urlParseCore_https t2 u h

/-- C9.  For every input, `toBaseUrl` either fails or returns the string
`scheme://host[:port]/` — an http/https origin with a trailing slash — for
the parsed URL; it never returns a non-http(s) scheme, and when the trimmed
input does not start with an http(s) scheme prefix the URL is parsed with
`https` assumed. -/
theorem claim9_toBaseUrl_shape (s r : String) (h : toBaseUrl s = some r) :
    ∃ u : UrlRec,
      (u.scheme = "http" ∨ u.scheme = "https") ∧
      r = ⟨u.scheme.data ++ ':' :: '/' :: '/' :: u.host.data ++ portChars u.port ++ ['/']⟩ ∧
      (startsHttpSlashes ⟨trimChars s.data⟩ = false → u.scheme = "https") := by
  unfold toBaseUrl at h
  by_cases hs : s = ""
  · rw [if_pos hs] at h; cases h
  · rw [if_neg hs] at h
    dsimp only at h
    by_cases hsh : startsHttpSlashes ⟨trimChars s.data⟩ = true
    · rw [if_pos hsh] at h
      cases hu : urlParse ⟨trimChars s.data⟩ with
      | none => rw [hu] at h; cases h
      | some u =>
        rw [hu] at h
        dsimp only at h
        by_cases hg : ¬(u.scheme = "http" ∨ u.scheme = "https")
        · rw [if_pos hg] at h; cases h
        · rw [if_neg hg] at h
          push_neg at hg
          refine ⟨u, hg, ?_, ?_⟩
          · injection h with h'
            rw [← h']
            rfl
          · intro hfalse
            rw [hfalse] at hsh
            cases hsh
    · rw [if_neg hsh] at h
      cases hu : urlParse ⟨httpsSlashesPat ++ (⟨trimChars s.data⟩ : String).data⟩ with
      | none => rw [hu] at h; cases h
      | some u =>
        rw [hu] at h
        dsimp only at h
        by_cases hg : ¬(u.scheme = "http" ∨ u.scheme = "https")
        · rw [if_pos hg] at h; cases h
        · rw [if_neg hg] at h
          push_neg at hg
          refine ⟨u, hg, ?_, fun _ => urlParse_https_prepend _ u hu⟩
          injection h with h'
          rw [← h']
          rfl

/-- Witness for `claim9_toBaseUrl_shape` at the scheme-less input
`mysite.com/page?x=1`, which resolves to the origin `https://mysite.com/`. -/
theorem claim9_toBaseUrl_shape_witness :
    toBaseUrl "mysite.com/page?x=1" = some "https://mysite.com/" ∧
    ∃ u : UrlRec,
      (u.scheme = "http" ∨ u.scheme = "https") ∧
      "https://mysite.com/" =
        (⟨u.scheme.data ++ ':' :: '/' :: '/' :: u.host.data ++ portChars u.port ++ ['/']⟩ : String) ∧
      (startsHttpSlashes ⟨trimChars "mysite.com/page?x=1".data⟩ = false → u.scheme = "https") :=
  ⟨by decide, claim9_toBaseUrl_shape "mysite.com/page?x=1" "https://mysite.com/" (by decide)⟩

/-! ## Claim C5 infrastructure: character classes and digit printing -/

theorem hostChar_ranges (c : Char) (h : isHostChar c = true) :
    (97 ≤ c.toNat ∧ c.toNat ≤ 122) ∨ (48 ≤ c.toNat ∧ c.toNat ≤ 57) ∨
    c.toNat = 46 ∨ c.toNat = 45 ∨ c.toNat = 95 := by
  simp only [isHostChar, isLowerAZ, isDigitChar, Bool.or_eq_true, decide_eq_true_eq] at h
  rcases h with ((((h | h) | h) | h) | h)
  · exact Or.inl h
  · exact Or.inr (Or.inl h)
  · subst h; right; right; left; rfl
  · subst h; right; right; right; left; rfl
  · subst h; right; right; right; right; rfl

theorem hostChar_urlChar (c : Char) (h : isHostChar c = true) : isUrlChar c = true := by
  have hr := hostChar_ranges c h
  simp only [isUrlChar, Bool.and_eq_true, Bool.not_eq_true', Bool.or_eq_false_iff,
    decide_eq_true_eq, decide_eq_false_iff_not]
  omega

theorem hostChar_not_upper (c : Char) (h : isHostChar c = true) : isUpperAZ c = false := by
  have hr := hostChar_ranges c h
  simp only [isUpperAZ, decide_eq_false_iff_not]
  omega

theorem hostChar_not_authEnd (c : Char) (h : isHostChar c = true) : isAuthEndChar c = false := by
  have hr := hostChar_ranges c h
  simp only [isAuthEndChar, Bool.or_eq_false_iff, decide_eq_false_iff_not]
  refine ⟨⟨?_, ?_⟩, ?_⟩ <;> intro hc <;> subst hc <;> simp_all

theorem hostChar_not_colon (c : Char) (h : isHostChar c = true) : (c ≠ ':') := by
  intro hc
  subst hc
  exact absurd h (by decide)

theorem hostChar_not_reserved (c : Char) (h : isHostChar c = true) :
    (c = '@' || c = '[' || c = ']') = false := by
  have hr := hostChar_ranges c h
  simp only [Bool.or_eq_false_iff, decide_eq_false_iff_not]
  refine ⟨⟨?_, ?_⟩, ?_⟩ <;> intro hc <;> subst hc <;> simp_all

theorem digitChar_ranges (c : Char) (h : isDigitChar c = true) :
    48 ≤ c.toNat ∧ c.toNat ≤ 57 := by
  simpa only [isDigitChar, decide_eq_true_eq] using h

theorem digitChar_urlChar (c : Char) (h : isDigitChar c = true) : isUrlChar c = true := by
  have hr := digitChar_ranges c h
  simp only [isUrlChar, Bool.and_eq_true, Bool.not_eq_true', Bool.or_eq_false_iff,
    decide_eq_true_eq, decide_eq_false_iff_not]
  omega

theorem digitChar_not_authEnd (c : Char) (h : isDigitChar c = true) :
    isAuthEndChar c = false := by
  have hr := digitChar_ranges c h
  simp only [isAuthEndChar, Bool.or_eq_false_iff, decide_eq_false_iff_not]
  refine ⟨⟨?_, ?_⟩, ?_⟩ <;> intro hc <;> subst hc <;> simp_all

theorem digitChar_not_colon (c : Char) (h : isDigitChar c = true) : (c ≠ ':') := by
  intro hc
  subst hc
  exact absurd h (by decide)

theorem urlChar_not_ws (c : Char) (h : isUrlChar c = true) : isWsChar c = false := by
  simp only [isUrlChar, Bool.and_eq_true, decide_eq_true_eq] at h
  simp only [isWsChar, Bool.or_eq_false_iff, decide_eq_false_iff_not]
  refine ⟨⟨⟨⟨⟨?_, ?_⟩, ?_⟩, ?_⟩, ?_⟩, ?_⟩ <;> intro hc <;> subst hc <;> simp_all

theorem urlChar_not_tabnl (c : Char) (h : isUrlChar c = true) :
    (c = '\t' || c = '\n' || c = '\r') = false := by
  simp only [isUrlChar, Bool.and_eq_true, decide_eq_true_eq] at h
  simp only [Bool.or_eq_false_iff, decide_eq_false_iff_not]
  refine ⟨⟨?_, ?_⟩, ?_⟩ <;> intro hc <;> subst hc <;> simp_all

theorem digitChr_isDigit (d : Nat) : isDigitChar (digitChr d) = true := by
  unfold digitChr
  split <;> decide

theorem digitVal_digitChr (d : Nat) (h : d < 10) : digitVal (digitChr d) = d := by
  interval_cases d <;> decide

theorem digitsVal_snoc (xs : List Char) (c : Char) :
    digitsVal (xs ++ [c]) = 10 * digitsVal xs + digitVal c := by
  unfold digitsVal
  rw [List.foldl_append]
  rfl

theorem natPrintAux_spec :
    ∀ (f n : Nat), n < f →
      (∀ c ∈ natPrintAux f n, isDigitChar c = true) ∧
      digitsVal (natPrintAux f n) = n ∧ natPrintAux f n ≠ [] := by
  intro f
  induction f with
  | zero => intro n h; omega
  | succ f ih =>
    intro n h
    unfold natPrintAux
    by_cases h10 : n < 10
    · rw [if_pos h10]
      refine ⟨?_, ?_, by simp⟩
      · intro c hc
        simp only [List.mem_singleton] at hc
        subst hc
        exact digitChr_isDigit n
      · show digitsVal ([] ++ [digitChr n]) = n
        rw [digitsVal_snoc]
        have : digitsVal [] = 0 := rfl
        rw [this, digitVal_digitChr n h10]
        omega
    · rw [if_neg h10]
      have hdiv : n / 10 < f := by
        have h1 : n / 10 < n := Nat.div_lt_self (by omega) (by omega)
        omega
      obtain ⟨ha, hb, hc⟩ := ih (n / 10) hdiv
      refine ⟨?_, ?_, by simp [hc]⟩
      · intro c hcm
        rcases List.mem_append.mp hcm with hcm | hcm
        · exact ha c hcm
        · simp only [List.mem_singleton] at hcm
          subst hcm
          exact digitChr_isDigit (n % 10)
      · rw [digitsVal_snoc, hb, digitVal_digitChr (n % 10) (Nat.mod_lt n (by omega))]
        omega

theorem natPrint_spec (n : Nat) :
    (∀ c ∈ natPrint n, isDigitChar c = true) ∧
    digitsVal (natPrint n) = n ∧ natPrint n ≠ [] :=
  natPrintAux_spec (n + 1) n (Nat.lt_succ_self n)

theorem asciiLowerChar_fixed (c : Char) (h : isUpperAZ c = false) : asciiLowerChar c = c := by
  unfold asciiLowerChar
  rw [h]
  rfl

theorem lowerList_fixed (l : List Char) (h : ∀ c ∈ l, isUpperAZ c = false) :
    lowerList l = l := by
  induction l with
  | nil => rfl
  | cons a t ih =>
    unfold lowerList
    rw [List.map_cons, asciiLowerChar_fixed a (h a (by simp))]
    have := ih (fun c hc => h c (by simp [hc]))
    unfold lowerList at this
    rw [this]

theorem spanP_take_prop (p : Char → Bool) :
    ∀ l : List Char, ∀ c ∈ (spanP p l).1, p c = true ∧ c ∈ l := by
  intro l
  induction l with
  | nil => intro c hc; cases hc
  | cons a t ih =>
    intro c hc
    by_cases hp : p a = true
    · rw [spanP_cons_pos p a t hp] at hc
      rcases List.mem_cons.mp hc with hc | hc
      · subst hc; exact ⟨hp, by simp⟩
      · obtain ⟨h1, h2⟩ := ih c hc
        exact ⟨h1, by simp [h2]⟩
    · rw [spanP_cons_neg p a t (by rw [Bool.not_eq_true] at hp; exact hp)] at hc
      cases hc

theorem spanP_drop_mem (p : Char → Bool) :
    ∀ l : List Char, ∀ c ∈ (spanP p l).2, c ∈ l := by
  intro l
  induction l with
  | nil => intro c hc; cases hc
  | cons a t ih =>
    intro c hc
    by_cases hp : p a = true
    · rw [spanP_cons_pos p a t hp] at hc
      exact List.mem_cons_of_mem a (ih c hc)
    · rw [spanP_cons_neg p a t (by rw [Bool.not_eq_true] at hp; exact hp)] at hc
      exact hc

theorem splitSlash_ne_nil : ∀ l : List Char, splitSlash l ≠ [] := by
  intro l
  induction l with
  | nil => simp [splitSlash]
  | cons a t ih =>
    unfold splitSlash
    by_cases h : a = '/'
    · rw [if_pos h]; simp
    · rw [if_neg h]
      cases hs : splitSlash t with
      | nil => exact absurd hs ih
      | cons s ss => simp

theorem splitSlash_nosl (s : List Char) (h : ∀ c ∈ s, ¬(c = '/')) : splitSlash s = [s] := by
  induction s with
  | nil => rfl
  | cons a t ih =>
    unfold splitSlash
    rw [if_neg (h a (by simp))]
    rw [ih (fun c hc => h c (by simp [hc]))]

theorem splitSlash_sep (s : List Char) (rest : List Char) (h : ∀ c ∈ s, ¬(c = '/')) :
    splitSlash (s ++ '/' :: rest) = s :: splitSlash rest := by
  induction s with
  | nil => simp [splitSlash]
  | cons a t ih =>
    rw [List.cons_append]
    conv_lhs => rw [splitSlash.eq_def]
    dsimp only
    rw [if_neg (h a (by simp))]
    rw [ih (fun c hc => h c (by simp [hc]))]

theorem splitSlash_interSlash :
    ∀ segs : List (List Char), segs ≠ [] → (∀ s ∈ segs, ∀ c ∈ s, ¬(c = '/')) →
      splitSlash (interSlash segs) = segs := by
  intro segs
  induction segs with
  | nil => intro h _; exact absurd rfl h
  | cons s ss ih =>
    intro _ hall
    cases ss with
    | nil => exact splitSlash_nosl s (hall s (by simp))
    | cons s2 ss2 =>
      show splitSlash (s ++ '/' :: interSlash (s2 :: ss2)) = s :: s2 :: ss2
      rw [splitSlash_sep s _ (hall s (by simp))]
      rw [ih (by simp) (fun x hx c hc => hall x (by simp [hx]) c hc)]

theorem splitSlash_pieces (l : List Char) :
    ∀ s ∈ splitSlash l, ∀ c ∈ s, ¬(c = '/') ∧ c ∈ l := by
  induction l with
  | nil =>
    intro s hs c hc
    simp only [splitSlash, List.mem_singleton] at hs
    subst hs
    cases hc
  | cons a t ih =>
    intro s hs c hc
    unfold splitSlash at hs
    by_cases h : a = '/'
    · rw [if_pos h] at hs
      rcases List.mem_cons.mp hs with hs | hs
      · subst hs; cases hc
      · obtain ⟨h1, h2⟩ := ih s hs c hc
        exact ⟨h1, by simp [h2]⟩
    · rw [if_neg h] at hs
      cases hsp : splitSlash t with
      | nil => exact absurd hsp (splitSlash_ne_nil t)
      | cons p ps =>
        rw [hsp] at hs
        rcases List.mem_cons.mp hs with hs | hs
        · subst hs
          rcases List.mem_cons.mp hc with hc | hc
          · subst hc; exact ⟨h, by simp⟩
          · obtain ⟨h1, h2⟩ := ih p (by rw [hsp]; simp) c hc
            exact ⟨h1, by simp [h2]⟩
        · obtain ⟨h1, h2⟩ := ih s (by rw [hsp]; simp [hs]) c hc
          exact ⟨h1, by simp [h2]⟩

theorem interSlash_mem :
    ∀ (segs : List (List Char)) (c : Char), c ∈ interSlash segs →
      c = '/' ∨ ∃ s ∈ segs, c ∈ s := by
  intro segs
  induction segs with
  | nil => intro c hc; cases hc
  | cons s ss ih =>
    intro c hc
    cases ss with
    | nil => exact Or.inr ⟨s, by simp, hc⟩
    | cons s2 ss2 =>
      rw [show interSlash (s :: s2 :: ss2) = s ++ '/' :: interSlash (s2 :: ss2) from rfl] at hc
      rcases List.mem_append.mp hc with hc | hc
      · exact Or.inr ⟨s, by simp, hc⟩
      · rcases List.mem_cons.mp hc with hc | hc
        · exact Or.inl hc
        · rcases ih c hc with hc | ⟨x, hx, hcx⟩
          · exact Or.inl hc
          · exact Or.inr ⟨x, by simp [hx], hcx⟩

theorem dotProcess_id :
    ∀ (l acc : List (List Char)),
      (∀ s ∈ l, isDotSegL s = false ∧ isDDotSegL s = false) →
      dotProcess acc l = acc ++ l := by
  intro l
  induction l with
  | nil => intro acc _; simp [dotProcess]
  | cons s rest ih =>
    intro acc hall
    obtain ⟨hd, hdd⟩ := hall s (by simp)
    cases rest with
    | nil =>
      show dotProcess acc [s] = acc ++ [s]
      unfold dotProcess
      rw [if_neg (by rw [hdd]; simp), if_neg (by rw [hd]; simp)]
    | cons s2 rest2 =>
      show dotProcess acc (s :: s2 :: rest2) = acc ++ s :: s2 :: rest2
      unfold dotProcess
      rw [if_neg (by rw [hdd]; simp), if_neg (by rw [hd]; simp)]
      rw [ih (acc ++ [s]) (fun x hx => hall x (by simp [hx]))]
      simp

theorem dotProcess_ne_nil :
    ∀ (l acc : List (List Char)), l ≠ [] → dotProcess acc l ≠ [] := by
  intro l
  induction l with
  | nil => intro acc h; exact absurd rfl h
  | cons s rest ih =>
    intro acc _
    cases rest with
    | nil =>
      show dotProcess acc [s] ≠ []
      unfold dotProcess
      split
      · simp
      · split <;> simp
    | cons s2 rest2 =>
      show dotProcess acc (s :: s2 :: rest2) ≠ []
      unfold dotProcess
      split
      · exact ih _ (by simp)
      · split <;> exact ih _ (by simp)

theorem dotProcess_mem :
    ∀ (l acc : List (List Char)) (s : List Char), s ∈ dotProcess acc l →
      s ∈ acc ∨ s = [] ∨ (s ∈ l ∧ isDotSegL s = false ∧ isDDotSegL s = false) := by
  intro l
  induction l with
  | nil => intro acc s hs; exact Or.inl hs
  | cons x rest ih =>
    intro acc s hs
    cases rest with
    | nil =>
      unfold dotProcess at hs
      split at hs
      · rcases List.mem_append.mp hs with hs | hs
        · exact Or.inl (List.dropLast_subset _ hs)
        · simp only [List.mem_singleton] at hs
          exact Or.inr (Or.inl hs)
      · split at hs
        · rcases List.mem_append.mp hs with hs | hs
          · exact Or.inl hs
          · simp only [List.mem_singleton] at hs
            exact Or.inr (Or.inl hs)
        · rcases List.mem_append.mp hs with hs | hs
          · exact Or.inl hs
          · simp only [List.mem_singleton] at hs
            subst hs
            rename_i hdd hd
            exact Or.inr (Or.inr ⟨by simp, by rw [Bool.not_eq_true] at hd; exact hd,
              by rw [Bool.not_eq_true] at hdd; exact hdd⟩)
    | cons x2 rest2 =>
      unfold dotProcess at hs
      split at hs
      · rcases ih _ s hs with h | h | ⟨h1, h2⟩
        · exact Or.inl (List.dropLast_subset _ h)
        · exact Or.inr (Or.inl h)
        · exact Or.inr (Or.inr ⟨by simp [h1], h2⟩)
      · split at hs
        · rcases ih _ s hs with h | h | ⟨h1, h2⟩
          · exact Or.inl h
          · exact Or.inr (Or.inl h)
          · exact Or.inr (Or.inr ⟨by simp [h1], h2⟩)
        · rcases ih _ s hs with h | h | ⟨h1, h2⟩
          · rcases List.mem_append.mp h with h | h
            · exact Or.inl h
            · simp only [List.mem_singleton] at h
              subst h
              rename_i hdd hd
              exact Or.inr (Or.inr ⟨by simp, by rw [Bool.not_eq_true] at hd; exact hd,
                by rw [Bool.not_eq_true] at hdd; exact hdd⟩)
          · exact Or.inr (Or.inl h)
          · exact Or.inr (Or.inr ⟨by simp [h1], h2⟩)

theorem spanP_all (p : Char → Bool) (l : List Char) (h : ∀ c ∈ l, p c = true) :
    spanP p l = (l, []) := by
  have := spanP_all_pos p l [] h
  rw [List.append_nil] at this
  rw [this]
  simp [spanP]

theorem parseScheme_rt (sch : String) (hs : sch = "http" ∨ sch = "https") (r : List Char) :
    parseScheme (sch.data ++ ':' :: r) = some (sch, r) := by
  rcases hs with h | h <;> subst h
  · have h1 : ("http".data ++ ':' :: r) = 'h' :: 't' :: 't' :: 'p' :: ':' :: r := rfl
    have h2 : spanP isSchemeChar ('h' :: 't' :: 't' :: 'p' :: ':' :: r) =
        (['h', 't', 't', 'p'], ':' :: r) := by
      rw [spanP_cons_pos _ _ _ (by decide), spanP_cons_pos _ _ _ (by decide),
        spanP_cons_pos _ _ _ (by decide), spanP_cons_pos _ _ _ (by decide),
        spanP_cons_neg _ _ _ (by decide)]
    rw [h1]
    simp only [parseScheme, h2]
    rw [if_pos (by decide)]
  · have h1 : ("https".data ++ ':' :: r) = 'h' :: 't' :: 't' :: 'p' :: 's' :: ':' :: r := rfl
    have h2 : spanP isSchemeChar ('h' :: 't' :: 't' :: 'p' :: 's' :: ':' :: r) =
        (['h', 't', 't', 'p', 's'], ':' :: r) := by
      rw [spanP_cons_pos _ _ _ (by decide), spanP_cons_pos _ _ _ (by decide),
        spanP_cons_pos _ _ _ (by decide), spanP_cons_pos _ _ _ (by decide),
        spanP_cons_pos _ _ _ (by decide), spanP_cons_neg _ _ _ (by decide)]
    rw [h1]
    simp only [parseScheme, h2]
    rw [if_neg (by decide), if_pos (by decide)]

theorem parsePort_rt (n : Nat) (h : n ≤ 65535) : parsePort (natPrint n) = some (some n) := by
  obtain ⟨hd, hv, hne⟩ := natPrint_spec n
  unfold parsePort
  rw [if_neg (by simp [List.isEmpty_iff, hne]), if_pos (List.all_eq_true.mpr hd), hv, if_pos h]

theorem stripDefaultPort_keep (sch : String) (p : Option Nat)
    (hp : ∀ n, p = some n →
      ¬(sch = "http" ∧ n = 80) ∧ ¬(sch = "https" ∧ n = 443)) :
    stripDefaultPort sch p = p := by
  unfold stripDefaultPort
  cases p with
  | none =>
    rw [if_neg]
    rintro (⟨_, hc⟩ | ⟨_, hc⟩) <;> cases hc
  | some n =>
    rw [if_neg]
    rintro (⟨h1, h2⟩ | ⟨h1, h2⟩)
    · exact (hp n rfl).1 ⟨h1, Option.some_inj.mp h2⟩
    · exact (hp n rfl).2 ⟨h1, Option.some_inj.mp h2⟩

theorem parseAuthority_rt (hst : String) (port : Option Nat) (rest : List Char)
    (hh1 : hst.data ≠ []) (hh2 : ∀ c ∈ hst.data, isHostChar c = true)
    (hport : ∀ n, port = some n → n ≤ 65535)
    (hrest : rest = [] ∨ ∃ c rs, rest = c :: rs ∧ isAuthEndChar c = true) :
    parseAuthority (hst.data ++ (portChars port ++ rest)) = some (hst, port, rest) := by
  have hauthchars : ∀ c ∈ hst.data ++ portChars port, (!isAuthEndChar c) = true := by
    intro c hc
    rcases List.mem_append.mp hc with hc | hc
    · rw [hostChar_not_authEnd c (hh2 c hc)]
      rfl
    · cases port with
      | none => cases hc
      | some n =>
        rcases List.mem_cons.mp hc with hc | hc
        · subst hc; decide
        · rw [digitChar_not_authEnd c ((natPrint_spec n).1 c hc)]
          rfl
  have hspan : spanP (fun c => !isAuthEndChar c) (hst.data ++ (portChars port ++ rest)) =
      (hst.data ++ portChars port, rest) := by
    rw [← List.append_assoc, spanP_all_pos _ _ _ hauthchars]
    rcases hrest with hrest | ⟨c, rs, hrest, hend⟩
    · subst hrest
      simp [spanP]
    · subst hrest
      rw [spanP_cons_neg _ _ _ (by rw [hend]; rfl)]
      simp
  have hany : (hst.data ++ portChars port).any (fun c => c = '@' || c = '[' || c = ']') = false := by
    rw [List.any_eq_false]
    intro c hc
    rcases List.mem_append.mp hc with hc | hc
    · rw [hostChar_not_reserved c (hh2 c hc)]
      simp
    · cases port with
      | none => cases hc
      | some n =>
        rcases List.mem_cons.mp hc with hc | hc
        · subst hc; decide
        · have hr := digitChar_ranges c ((natPrint_spec n).1 c hc)
          simp only [Bool.or_eq_true, decide_eq_true_eq]
          rintro ((hc' | hc') | hc') <;> (subst hc'; simp_all)
  have hhost_ne : ∀ c ∈ hst.data, (fun c => (c ≠ ':' : Bool)) c = true := by
    intro c hc
    simp only [ne_eq, decide_eq_true_eq]
    exact hostChar_not_colon c (hh2 c hc)
  have hcolon : spanP (fun c => c ≠ ':') (hst.data ++ portChars port) =
      (hst.data, portChars port) := by
    cases port with
    | none =>
      show spanP _ (hst.data ++ []) = (hst.data, [])
      rw [List.append_nil, spanP_all _ _ hhost_ne]
    | some n =>
      show spanP _ (hst.data ++ (':' :: natPrint n)) = (hst.data, ':' :: natPrint n)
      rw [spanP_all_pos _ _ _ hhost_ne, spanP_cons_neg _ _ _ (by decide)]
      simp
  have hlow : lowerList hst.data = hst.data :=
    lowerList_fixed hst.data (fun c hc => hostChar_not_upper c (hh2 c hc))
  unfold parseAuthority
  rw [hspan]
  dsimp only
  rw [if_neg (by rw [hany]; simp), hcolon]
  dsimp only
  rw [hlow]
  rw [if_neg (by simp [List.isEmpty_iff, hh1])]
  rw [if_neg (by rw [List.all_eq_true.mpr hh2]; simp)]
  cases port with
  | none => rfl
  | some n =>
    show (match parsePort (natPrint n) with
        | none => none
        | some p => some ((⟨hst.data⟩ : String), p, rest)) = some (hst, some n, rest)
    rw [parsePort_rt n (hport n rfl)]

theorem segOk_char (s : String) (h : segOk s = true) :
    ∀ c ∈ s.data, isUrlChar c = true ∧ ¬(c = '/') ∧ ¬(c = '?') ∧ ¬(c = '#') := by
  simp only [segOk, Bool.and_eq_true, List.all_eq_true] at h
  intro c hc
  have := h.1.1 c hc
  simp only [Bool.and_eq_true, Bool.not_eq_true', Bool.or_eq_false_iff,
    decide_eq_false_iff_not] at this
  exact ⟨this.1, this.2.1.1, this.2.1.2, this.2.2⟩

theorem segOk_not_dots (s : String) (h : segOk s = true) :
    isDotSegL s.data = false ∧ isDDotSegL s.data = false := by
  simp only [segOk, Bool.and_eq_true, Bool.not_eq_true'] at h
  exact ⟨h.1.2, h.2⟩

theorem parsePath_rt (segs : List String) (rest : List Char)
    (hne : segs ≠ []) (hgood : segs.all segOk = true)
    (hrest : rest = [] ∨ ∃ c rs, rest = c :: rs ∧ (c = '?' ∨ c = '#')) :
    parsePath (pathChars segs ++ rest) = (segs, rest) := by
  have hq : ∀ c ∈ interSlash (segs.map String.data),
      (fun c => !(c = '?' || c = '#')) c = true := by
    intro c hc
    rcases interSlash_mem _ c hc with hc | ⟨s, hs, hcs⟩
    · subst hc; decide
    · obtain ⟨s', hs', rfl⟩ := List.mem_map.mp hs
      have hch := segOk_char s' (List.all_eq_true.mp hgood s' hs') c hcs
      simp only [Bool.not_eq_true', Bool.or_eq_false_iff, decide_eq_false_iff_not]
      exact ⟨hch.2.2.1, hch.2.2.2⟩
  have hspan : spanP (fun c => !(c = '?' || c = '#'))
      (interSlash (segs.map String.data) ++ rest) =
      (interSlash (segs.map String.data), rest) := by
    rcases hrest with hrest | ⟨c, rs, hrest, hcq⟩
    · subst hrest
      rw [List.append_nil, spanP_all _ _ hq]
    · subst hrest
      rw [spanP_all_pos _ _ _ hq, spanP_cons_neg _ _ _ (by
        rcases hcq with hcq | hcq <;> (subst hcq; decide))]
      simp
  show parsePath ('/' :: (interSlash (segs.map String.data) ++ rest)) = (segs, rest)
  show ((dotProcess [] (splitSlash (spanP (fun c => !(c = '?' || c = '#'))
      (interSlash (segs.map String.data) ++ rest)).1)).map (fun l => (⟨l⟩ : String)),
    (spanP (fun c => !(c = '?' || c = '#'))
      (interSlash (segs.map String.data) ++ rest)).2) = (segs, rest)
  rw [hspan]
  dsimp only
  rw [splitSlash_interSlash _ (by simp [hne]) (by
    intro s hs c hc
    obtain ⟨s', hs', rfl⟩ := List.mem_map.mp hs
    exact (segOk_char s' (List.all_eq_true.mp hgood s' hs') c hc).2.1)]
  rw [dotProcess_id _ _ (by
    intro s hs
    obtain ⟨s', hs', rfl⟩ := List.mem_map.mp hs
    exact segOk_not_dots s' (List.all_eq_true.mp hgood s' hs'))]
  rw [List.nil_append, List.map_map]
  have hcomp : ((fun l => (⟨l⟩ : String)) ∘ String.data) = id := funext (fun s => rfl)
  rw [hcomp, List.map_id]

theorem parseQuery_rt_some (qs : String)
    (hq : qs.data.all (fun c => isUrlChar c && c ≠ '#') = true) :
    parseQuery ('?' :: qs.data) = (some qs, []) := by
  show ((some (⟨(spanP (fun c => c ≠ '#') qs.data).1⟩ : String)),
    (spanP (fun c => c ≠ '#') qs.data).2) = (some qs, [])
  rw [spanP_all _ _ (by
    intro c hc
    have := List.all_eq_true.mp hq c hc
    simp only [Bool.and_eq_true] at this
    exact this.2)]

theorem mem_portChars (p : Option Nat) (c : Char) (hc : c ∈ portChars p) :
    isUrlChar c = true := by
  cases p with
  | none => cases hc
  | some n =>
    rcases List.mem_cons.mp hc with hc | hc
    · subst hc; decide
    · exact digitChar_urlChar c ((natPrint_spec n).1 c hc)

theorem mem_pathChars (segs : List String) (h : segs.all segOk = true) (c : Char)
    (hc : c ∈ pathChars segs) : isUrlChar c = true := by
  unfold pathChars at hc
  rcases List.mem_cons.mp hc with hc | hc
  · subst hc; decide
  · rcases interSlash_mem _ c hc with hc | ⟨s, hs, hcs⟩
    · subst hc; decide
    · obtain ⟨s', hs', rfl⟩ := List.mem_map.mp hs
      exact (segOk_char s' (List.all_eq_true.mp h s' hs') c hcs).1

theorem mem_schemeChars (sch : String) (hs : sch = "http" ∨ sch = "https") (c : Char)
    (hc : c ∈ sch.data) : isUrlChar c = true := by
  rcases hs with rfl | rfl
  · rw [show ("http" : String).data = ['h', 't', 't', 'p'] from rfl] at hc
    fin_cases hc <;> decide
  · rw [show ("https" : String).data = ['h', 't', 't', 'p', 's'] from rfl] at hc
    fin_cases hc <;> decide

theorem mem_queryPart (q : Option String)
    (hq : ∀ qs, q = some qs → qs.data.all (fun c => isUrlChar c && c ≠ '#') = true)
    (c : Char)
    (hc : c ∈ (match q with | none => ([] : List Char) | some qs => '?' :: qs.data)) :
    isUrlChar c = true := by
  cases q with
  | none => cases hc
  | some qs =>
    rcases List.mem_cons.mp hc with hc | hc
    · subst hc; decide
    · have := List.all_eq_true.mp (hq qs rfl) c hc
      simp only [Bool.and_eq_true] at this
      exact this.1

theorem dropWhile_none (p : Char → Bool) :
    ∀ l : List Char, (∀ c ∈ l, p c = false) → l.dropWhile p = l := by
  intro l
  induction l with
  | nil => intro _; rfl
  | cons a t ih =>
    intro h
    rw [List.dropWhile_cons, if_neg (by rw [h a (by simp)]; simp)]

theorem trimChars_id (l : List Char) (h : ∀ c ∈ l, isWsChar c = false) : trimChars l = l := by
  unfold trimChars trimLeftChars trimRightChars
  rw [dropWhile_none _ _ h, dropWhile_none _ _ (fun c hc => h c (List.mem_reverse.mp hc)),
    List.reverse_reverse]

theorem serialize_chars (u : UrlRec) (hv : UrlValid u) (hf : u.frag = none) :
    ∀ c ∈ (serializeUrl u).data, isUrlChar c = true := by
  obtain ⟨hsch, hh1, hh2, hport, hp1, hp2, hq, hfr⟩ := hv
  intro c hc
  have hdata : (serializeUrl u).data =
      u.scheme.data ++ ':' :: '/' :: '/' :: u.host.data ++ portChars u.port ++
      pathChars u.path ++
      (match u.query with | none => [] | some q => '?' :: q.data) ++ [] := by
    show (u.scheme.data ++ ':' :: '/' :: '/' :: u.host.data ++ portChars u.port ++
      pathChars u.path ++ (match u.query with | none => [] | some q => '?' :: q.data) ++
      (match u.frag with | none => [] | some f => '#' :: f.data)) = _
    rw [hf]
  rw [hdata] at hc
  simp only [List.append_nil, List.mem_append, List.mem_cons] at hc
  rcases hc with ((((hc | hc) | hc) | hc) | hc)
  · exact mem_schemeChars u.scheme hsch c hc
  · rcases hc with hc | hc | hc | hc
    · subst hc; decide
    · subst hc; decide
    · subst hc; decide
    · exact hostChar_urlChar c (List.all_eq_true.mp hh2 c hc)
  · exact mem_portChars u.port c hc
  · exact mem_pathChars u.path hp2 c hc
  · exact mem_queryPart u.query hq c hc

theorem preprocess_serialize (u : UrlRec) (hv : UrlValid u) (hf : u.frag = none) :
    preprocessUrl (serializeUrl u) = some (serializeUrl u).data := by
  have hall := serialize_chars u hv hf
  unfold preprocessUrl
  dsimp only
  rw [trimChars_id _ (fun c hc => urlChar_not_ws c (hall c hc))]
  have hfil : (serializeUrl u).data.filter
      (fun c => !(c = '\t' || c = '\n' || c = '\r')) = (serializeUrl u).data := by
    rw [List.filter_eq_self]
    intro a ha
    rw [urlChar_not_tabnl a (hall a ha)]
    rfl
  rw [hfil, if_pos (List.all_eq_true.mpr hall)]

theorem urlParseCore_rt_gen (sch hst : String) (prt : Option Nat) (pth : List String)
    (qr : Option String) (Qp : List Char)
    (hsch : sch = "http" ∨ sch = "https")
    (hh1 : hst.data ≠ []) (hh2 : hst.data.all isHostChar = true)
    (hportb : ∀ n, prt = some n → n ≤ 65535)
    (hportd : ∀ n, prt = some n →
      ¬(sch = "http" ∧ n = 80) ∧ ¬(sch = "https" ∧ n = 443))
    (hp1 : pth ≠ []) (hp2 : pth.all segOk = true)
    (hQ1 : parseQuery Qp = (qr, []))
    (hQ2 : Qp = [] ∨ ∃ c rs, Qp = c :: rs ∧ (c = '?' ∨ c = '#')) :
    urlParseCore (sch.data ++ ':' :: '/' :: '/' ::
      (hst.data ++ (portChars prt ++ (pathChars pth ++ Qp)))) =
      some ⟨sch, hst, prt, pth, qr, none⟩ := by
  unfold urlParseCore
  rw [parseScheme_rt sch hsch]
  dsimp only
  rw [show slashSlash ('/' :: '/' :: (hst.data ++ (portChars prt ++ (pathChars pth ++ Qp)))) =
      some (hst.data ++ (portChars prt ++ (pathChars pth ++ Qp))) from rfl]
  dsimp only
  rw [parseAuthority_rt hst prt _ hh1 (List.all_eq_true.mp hh2) hportb
    (Or.inr ⟨'/', interSlash (pth.map String.data) ++ Qp, by
      rw [show pathChars pth ++ Qp =
        '/' :: (interSlash (pth.map String.data) ++ Qp) from rfl], by decide⟩)]
  dsimp only
  rw [parsePath_rt pth Qp hp1 hp2 hQ2]
  dsimp only
  rw [hQ1]
  dsimp only
  rw [show parseFrag ([] : List Char) = some none from rfl]
  dsimp only
  rw [stripDefaultPort_keep sch prt hportd]

theorem urlParse_serialize (u : UrlRec) (hv : UrlValid u) (hf : u.frag = none) :
    urlParse (serializeUrl u) = some u := by
  obtain ⟨sch, hst, prt, pth, qr, fr⟩ := u
  obtain ⟨hsch, hh1, hh2, hport, hp1, hp2, hq, hfr⟩ := hv
  dsimp only at hsch hh1 hh2 hport hp1 hp2 hq hfr hf
  subst hf
  unfold urlParse
  rw [preprocess_serialize ⟨sch, hst, prt, pth, qr, none⟩
    ⟨hsch, hh1, hh2, hport, hp1, hp2, hq, fun f hf' => by cases hf'⟩ rfl]
  show urlParseCore (serializeUrl ⟨sch, hst, prt, pth, qr, none⟩).data =
    some ⟨sch, hst, prt, pth, qr, none⟩
  have hportb : ∀ n, prt = some n → n ≤ 65535 := fun n hn => (hport n hn).1
  have hportd : ∀ n, prt = some n →
      ¬(sch = "http" ∧ n = 80) ∧ ¬(sch = "https" ∧ n = 443) := fun n hn => (hport n hn).2
  cases qr with
  | none =>
    have hdata : (serializeUrl ⟨sch, hst, prt, pth, none, none⟩).data =
        sch.data ++ ':' :: '/' :: '/' ::
          (hst.data ++ (portChars prt ++ pathChars pth)) := by
      show (sch.data ++ ':' :: '/' :: '/' :: hst.data ++ portChars prt ++ pathChars pth ++
        [] ++ []) = _
      simp only [List.append_assoc, List.cons_append, List.nil_append, List.append_nil]
    rw [hdata]
    have hgen := urlParseCore_rt_gen sch hst prt pth none []
      hsch hh1 hh2 hportb hportd hp1 hp2 rfl (Or.inl rfl)
    rw [List.append_nil] at hgen
    exact hgen
  | some qs =>
    have hdata : (serializeUrl ⟨sch, hst, prt, pth, some qs, none⟩).data =
        sch.data ++ ':' :: '/' :: '/' ::
          (hst.data ++ (portChars prt ++ (pathChars pth ++ '?' :: qs.data))) := by
      show (sch.data ++ ':' :: '/' :: '/' :: hst.data ++ portChars prt ++ pathChars pth ++
        '?' :: qs.data ++ []) = _
      simp only [List.append_assoc, List.cons_append, List.nil_append, List.append_nil]
    rw [hdata]
    exact urlParseCore_rt_gen sch hst prt pth (some qs) ('?' :: qs.data)
      hsch hh1 hh2 hportb hportd hp1 hp2
      (parseQuery_rt_some qs (hq qs rfl))
      (Or.inr ⟨'?', qs.data, rfl, Or.inl rfl⟩)

/-! ### Every parser output is a valid record -/

theorem parseScheme_some (cs : List Char) (sch : String) (r : List Char)
    (h : parseScheme cs = some (sch, r)) :
    (sch = "http" ∨ sch = "https") ∧ ∀ c ∈ r, c ∈ cs := by
  simp only [parseScheme] at h
  split at h
  · next rest heq =>
    split_ifs at h with h1 h2
    · simp only [Option.some.injEq, Prod.mk.injEq] at h
      obtain ⟨hs, hr⟩ := h
      subst hs; subst hr
      refine ⟨Or.inl rfl, fun c hc => ?_⟩
      exact spanP_drop_mem isSchemeChar cs c (by rw [heq]; exact List.mem_cons_of_mem _ hc)
    · simp only [Option.some.injEq, Prod.mk.injEq] at h
      obtain ⟨hs, hr⟩ := h
      subst hs; subst hr
      refine ⟨Or.inr rfl, fun c hc => ?_⟩
      exact spanP_drop_mem isSchemeChar cs c (by rw [heq]; exact List.mem_cons_of_mem _ hc)
  · exact absurd h (by simp)

theorem slashSlash_some (l r : List Char) (h : slashSlash l = some r) :
    l = '/' :: '/' :: r := by
  unfold slashSlash at h
  split at h
  · next r0 =>
    injection h with h
    rw [h]
  · exact absurd h (by simp)

theorem parsePort_some (cs : List Char) (p : Option Nat) (h : parsePort cs = some p) :
    ∀ n, p = some n → n ≤ 65535 := by
  intro n hn
  subst hn
  simp only [parsePort] at h
  split_ifs at h with h1 h2 h3
  · exact absurd h (by simp)
  · simp only [Option.some.injEq] at h
    subst h
    exact h3

theorem parseAuthority_some (cs : List Char) (hst : String) (port : Option Nat)
    (rest : List Char) (h : parseAuthority cs = some (hst, port, rest)) :
    hst.data ≠ [] ∧ hst.data.all isHostChar = true ∧
    (∀ n, port = some n → n ≤ 65535) ∧ ∀ c ∈ rest, c ∈ cs := by
  simp only [parseAuthority] at h
  split_ifs at h with h1 h2 h3
  have h2' : lowerList (spanP (fun c => c ≠ ':')
      (spanP (fun c => !isAuthEndChar c) cs).1).1 ≠ [] := by
    simpa using h2
  rw [Bool.not_eq_true, Bool.not_eq_false'] at h3
  split at h
  · next pcs heqc =>
    split at h
    · exact absurd h (by simp)
    · next p heqp =>
      simp only [Option.some.injEq, Prod.mk.injEq] at h
      obtain ⟨hh, hp, hr⟩ := h
      subst hh; subst hp; subst hr
      refine ⟨h2', h3, parsePort_some pcs _ heqp, fun c hc => ?_⟩
      exact spanP_drop_mem _ cs c hc
  · simp only [Option.some.injEq, Prod.mk.injEq] at h
    obtain ⟨hh, hp, hr⟩ := h
    subst hh; subst hp; subst hr
    refine ⟨h2', h3, ?_, ?_⟩
    · intro n hn
      exact nomatch hn
    · intro c hc
      exact spanP_drop_mem _ cs c hc

theorem preprocessUrl_some (s : String) (cs : List Char) (h : preprocessUrl s = some cs) :
    ∀ c ∈ cs, isUrlChar c = true := by
  simp only [preprocessUrl] at h
  split_ifs at h with h1
  injection h with h
  subst h
  exact fun c hc => List.all_eq_true.mp h1 c hc

theorem stripDefaultPort_some (sch : String) (p : Option Nat) (n : Nat)
    (h : stripDefaultPort sch p = some n) :
    p = some n ∧ ¬(sch = "http" ∧ n = 80) ∧ ¬(sch = "https" ∧ n = 443) := by
  unfold stripDefaultPort at h
  split_ifs at h with hc
  push_neg at hc
  refine ⟨h, ?_, ?_⟩
  · rintro ⟨hs, rfl⟩
    exact hc.1 hs h
  · rintro ⟨hs, rfl⟩
    exact hc.2 hs h

theorem parsePath_some (cs : List Char) (segs : List String) (r : List Char)
    (hc : ∀ c ∈ cs, isUrlChar c = true)
    (h : parsePath cs = (segs, r)) :
    segs ≠ [] ∧ segs.all segOk = true ∧ ∀ c ∈ r, c ∈ cs := by
  unfold parsePath at h
  split at h
  · next rest =>
    simp only [Prod.mk.injEq] at h
    obtain ⟨hsegs, hr⟩ := h
    subst hsegs; subst hr
    refine ⟨?_, ?_, ?_⟩
    · intro hh
      rw [List.map_eq_nil_iff] at hh
      exact dotProcess_ne_nil _ [] (splitSlash_ne_nil _) hh
    · rw [List.all_eq_true]
      intro s hs
      obtain ⟨l, hl, rfl⟩ := List.mem_map.mp hs
      rcases dotProcess_mem _ [] l hl with hil | hnil | ⟨hmem, hd, hdd⟩
      · cases hil
      · subst hnil
        decide
      · show (l.all (fun c => isUrlChar c && !(c = '/' || c = '?' || c = '#')) &&
          !isDotSegL l && !isDDotSegL l) = true
        rw [hd, hdd]
        simp only [Bool.not_false, Bool.and_true]
        rw [List.all_eq_true]
        intro c hc'
        obtain ⟨hsl, hmem1⟩ := splitSlash_pieces _ l hmem c hc'
        obtain ⟨hqp, hmem2⟩ := spanP_take_prop _ rest c hmem1
        have hurl : isUrlChar c = true := hc c (List.mem_cons_of_mem _ hmem2)
        simp only [Bool.not_eq_true', Bool.or_eq_false_iff, decide_eq_false_iff_not] at hqp
        simp only [Bool.and_eq_true, Bool.not_eq_true', Bool.or_eq_false_iff,
          decide_eq_false_iff_not]
        exact ⟨hurl, ⟨hsl, hqp.1⟩, hqp.2⟩
    · intro c hc'
      exact List.mem_cons_of_mem _ (spanP_drop_mem _ rest c hc')
  · simp only [Prod.mk.injEq] at h
    obtain ⟨hsegs, hr⟩ := h
    subst hsegs; subst hr
    exact ⟨by simp, by decide, fun c hc' => hc'⟩

theorem parseQuery_some (cs : List Char) (q : Option String) (r : List Char)
    (hc : ∀ c ∈ cs, isUrlChar c = true)
    (h : parseQuery cs = (q, r)) :
    (∀ qs, q = some qs → qs.data.all (fun c => isUrlChar c && c ≠ '#') = true) ∧
    ∀ c ∈ r, c ∈ cs := by
  unfold parseQuery at h
  split at h
  · next rest =>
    simp only [Prod.mk.injEq] at h
    obtain ⟨hq, hr⟩ := h
    subst hq; subst hr
    refine ⟨?_, ?_⟩
    · intro qs hqs
      have hqs' := Option.some_inj.mp hqs
      subst hqs'
      rw [List.all_eq_true]
      intro c hc'
      obtain ⟨hqp, hmem⟩ := spanP_take_prop _ rest c hc'
      have hurl : isUrlChar c = true := hc c (List.mem_cons_of_mem _ hmem)
      simp only [Bool.and_eq_true]
      refine ⟨hurl, ?_⟩
      exact hqp
    · intro c hc'
      exact List.mem_cons_of_mem _ (spanP_drop_mem _ rest c hc')
  · simp only [Prod.mk.injEq] at h
    obtain ⟨hq, hr⟩ := h
    subst hq; subst hr
    exact ⟨fun qs hqs => (nomatch hqs), fun c hc' => hc'⟩

theorem parseFrag_some (cs : List Char) (fr : Option String)
    (hc : ∀ c ∈ cs, isUrlChar c = true)
    (h : parseFrag cs = some fr) :
    ∀ f, fr = some f → f.data.all isUrlChar = true := by
  unfold parseFrag at h
  split at h
  · injection h with h
    subst h
    intro f hf
    exact nomatch hf
  · next rest =>
    injection h with h
    subst h
    intro f hf
    have hf' := Option.some_inj.mp hf
    subst hf'
    rw [List.all_eq_true]
    intro c hc'
    exact hc c (List.mem_cons_of_mem _ hc')
  · exact absurd h (by simp)

theorem urlParse_valid (s : String) (u : UrlRec) (h : urlParse s = some u) :
    UrlValid u := by
  unfold urlParse at h
  rcases Option.bind_eq_some.mp h with ⟨cs, hpre, hcore⟩
  have hcs := preprocessUrl_some s cs hpre
  simp only [urlParseCore] at hcore
  split at hcore
  · exact absurd hcore (by simp)
  · next sch r1 heq1 =>
    split at hcore
    · exact absurd hcore (by simp)
    · next r2 heq2 =>
      split at hcore
      · exact absurd hcore (by simp)
      · next host port r3 heq3 =>
        split at hcore
        · exact absurd hcore (by simp)
        · next fr heq4 =>
          injection hcore with hcore
          subst hcore
          obtain ⟨hsch, hr1⟩ := parseScheme_some cs sch r1 heq1
          have hslash := slashSlash_some r1 r2 heq2
          have hr2cs : ∀ c ∈ r2, c ∈ cs := fun c hc' => hr1 c (by
            rw [hslash]
            exact List.mem_cons_of_mem _ (List.mem_cons_of_mem _ hc'))
          obtain ⟨hhne, hhall, hpb, hr3⟩ := parseAuthority_some r2 host port r3 heq3
          have hr3url : ∀ c ∈ r3, isUrlChar c = true :=
            fun c hc' => hcs c (hr2cs c (hr3 c hc'))
          obtain ⟨hp1, hp2, hpr⟩ :=
            parsePath_some r3 (parsePath r3).1 (parsePath r3).2 hr3url rfl
          have hpurl : ∀ c ∈ (parsePath r3).2, isUrlChar c = true :=
            fun c hc' => hr3url c (hpr c hc')
          obtain ⟨hqv, hqr⟩ := parseQuery_some (parsePath r3).2
            (parseQuery (parsePath r3).2).1 (parseQuery (parsePath r3).2).2 hpurl rfl
          have hqurl : ∀ c ∈ (parseQuery (parsePath r3).2).2, isUrlChar c = true :=
            fun c hc' => hpurl c (hqr c hc')
          have hfv := parseFrag_some (parseQuery (parsePath r3).2).2 fr hqurl heq4
          refine ⟨hsch, hhne, hhall, ?_, hp1, hp2, hqv, hfv⟩
          intro n hn
          obtain ⟨hpn, hnd1, hnd2⟩ := stripDefaultPort_some sch port n hn
          exact ⟨hpb n hpn, hnd1, hnd2⟩

/-! ### Normalisation lemmas for `normRec` -/


theorem normRec_simplify (u : UrlRec) (hv : UrlValid u) :
    normRec u = { u with frag := none, path := stripTrailSlash u.path } := by
  obtain ⟨hsch, hne, hhost, hport, hp1, hp2, hq, hf⟩ := hv
  unfold normRec
  have hfix : lowerList u.host.data = u.host.data :=
    lowerList_fixed _ (fun c hc => hostChar_not_upper c (List.all_eq_true.mp hhost c hc))
  have hcond : ¬((u.scheme = "http" ∧ u.port = some 80) ∨
      (u.scheme = "https" ∧ u.port = some 443)) := by
    rintro (⟨hs, hp'⟩ | ⟨hs, hp'⟩)
    · exact (hport 80 hp').2.1 ⟨hs, rfl⟩
    · exact (hport 443 hp').2.2 ⟨hs, rfl⟩
  rw [if_neg hcond, hfix]

theorem stripTrailSlash_concat (l : List String) (a : String) :
    stripTrailSlash (l ++ [a]) = if a = "" ∧ l ≠ [] then l else l ++ [a] := by
  unfold stripTrailSlash
  simp only [List.getLast?_concat, List.dropLast_concat, Option.some.injEq]
  by_cases ha : a = ""
  · subst ha
    by_cases hl : l = []
    · subst hl
      simp
    · rw [if_pos ⟨rfl, fun hx => hl (by
        have hlen := congrArg List.length hx
        simp at hlen
        exact hlen)⟩, if_pos ⟨rfl, hl⟩]
  · rw [if_neg (fun hx => ha hx.1), if_neg (fun hx => ha hx.1)]

theorem endsTwoEmpty_false_last (l : List String)
    (hends : endsTwoEmpty (l ++ [""]) = false) : l.getLast? ≠ some "" := by
  intro hlast
  rcases List.eq_nil_or_concat l with rfl | ⟨l2, b, rfl⟩
  · exact absurd hlast (by simp)
  · rw [List.concat_eq_append] at hlast hends
    rw [List.getLast?_concat] at hlast
    have hb : b = "" := Option.some_inj.mp hlast
    subst hb
    unfold endsTwoEmpty at hends
    rw [show (l2 ++ [""] ++ [""]).reverse = ("" : String) :: "" :: l2.reverse by simp] at hends
    simp at hends

theorem stripTrailSlash_idem (segs : List String)
    (hends : endsTwoEmpty segs = false) :
    stripTrailSlash (stripTrailSlash segs) = stripTrailSlash segs := by
  rcases List.eq_nil_or_concat segs with rfl | ⟨l, a, rfl⟩
  · decide
  · rw [List.concat_eq_append] at hends ⊢
    rw [stripTrailSlash_concat]
    by_cases ha : a = ""
    · subst ha
      by_cases hl : l = []
      · subst hl
        rw [if_neg (by simp)]
        rw [stripTrailSlash_concat, if_neg (by simp)]
      · rw [if_pos ⟨rfl, hl⟩]
        have hlast := endsTwoEmpty_false_last l hends
        unfold stripTrailSlash
        rw [if_neg (fun hx => hlast hx.1)]
    · rw [if_neg (fun hx => ha hx.1)]
      rw [stripTrailSlash_concat, if_neg (fun hx => ha hx.1)]

theorem stripTrailSlash_ne_nil (segs : List String) (h : segs ≠ []) :
    stripTrailSlash segs ≠ [] := by
  unfold stripTrailSlash
  split_ifs with hc
  · obtain ⟨h1, h2⟩ := hc
    intro hd
    cases segs with
    | nil => exact h rfl
    | cons a t =>
      cases t with
      | nil =>
        simp only [List.getLast?_singleton, Option.some.injEq] at h1
        exact h2 (by rw [h1])
      | cons b t2 => simp at hd
  · exact h

theorem stripTrailSlash_mem (segs : List String) (s : String)
    (h : s ∈ stripTrailSlash segs) : s ∈ segs := by
  unfold stripTrailSlash at h
  split_ifs at h with hc
  · exact List.dropLast_subset _ h
  · exact h

theorem normRec_valid (u : UrlRec) (hv : UrlValid u) : UrlValid (normRec u) := by
  rw [normRec_simplify u hv]
  obtain ⟨hsch, hne, hhost, hport, hp1, hp2, hq, hf⟩ := hv
  refine ⟨hsch, hne, hhost, hport, ?_, ?_, hq, ?_⟩
  · exact stripTrailSlash_ne_nil u.path hp1
  · rw [List.all_eq_true]
    intro s hs
    exact List.all_eq_true.mp hp2 s (stripTrailSlash_mem u.path s hs)
  · intro f hf'
    exact nomatch hf'

theorem normRec_idem (u : UrlRec) (hv : UrlValid u)
    (hends : endsTwoEmpty u.path = false) :
    normRec (normRec u) = normRec u := by
  have h1 := normRec_simplify u hv
  have hv2 := normRec_valid u hv
  rw [h1] at hv2 ⊢
  rw [normRec_simplify _ hv2]
  show ({ u with frag := none, path := stripTrailSlash (stripTrailSlash u.path) } : UrlRec) =
    { u with frag := none, path := stripTrailSlash u.path }
  rw [stripTrailSlash_idem u.path hends]

/-- C5 counterexample.  The claim says `normalize` is idempotent on every
syntactically valid URL string.  `normalizeUrl` strips exactly one trailing
slash (`u.pathname.slice(0, -1)`), so the first pass sends
`"http://x.com/a//"` to `"http://x.com/a/"` and a second pass sends that to
`"http://x.com/a"`: normalising the already-normalised output changes it. -/
theorem claim5_counterexample :
    normalizeUrl "http://x.com/a//" none = some "http://x.com/a/" ∧
    normalizeUrl "http://x.com/a/" none = some "http://x.com/a" ∧
    (normalizeUrl "http://x.com/a//" none).bind (fun v => normalizeUrl v none) ≠
      normalizeUrl "http://x.com/a//" none := by
  refine ⟨by decide, by decide, by decide⟩

/-- C5 amended.  For every URL string the parser accepts whose parsed path
does not end in two empty segments (a trailing `//` in the serialisation),
`normalize` is idempotent: running `normalizeUrl` on its own output returns
that output unchanged.  When the path does end in `//`, each pass strips
exactly one slash (`claim5_counterexample`). -/
theorem claim5_normalize_idem (s : String) (p : UrlRec)
    (hp : urlParse s = some p) (hends : endsTwoEmpty p.path = false) :
    (normalizeUrl s none).bind (fun v => normalizeUrl v none) =
      normalizeUrl s none := by
  have hv := urlParse_valid s p hp
  have hns : normalizeUrl s none = some (serializeUrl (normRec p)) := by
    unfold normalizeUrl jsURL
    rw [hp]
    rfl
  rw [hns]
  show normalizeUrl (serializeUrl (normRec p)) none = some (serializeUrl (normRec p))
  have hv2 := normRec_valid p hv
  have hparse : urlParse (serializeUrl (normRec p)) = some (normRec p) :=
    urlParse_serialize (normRec p) hv2 rfl
  unfold normalizeUrl jsURL
  rw [hparse]
  show some (serializeUrl (normRec (normRec p))) = some (serializeUrl (normRec p))
  rw [normRec_idem p hv hends]

/-- Witness for `claim5_normalize_idem` at `"http://example.com/about"`. -/
theorem claim5_normalize_idem_witness :
    urlParse "http://example.com/about" =
      some ⟨"http", "example.com", none, ["about"], none, none⟩ ∧
    endsTwoEmpty (["about"] : List String) = false ∧
    (normalizeUrl "http://example.com/about" none).bind (fun v => normalizeUrl v none) =
      normalizeUrl "http://example.com/about" none :=
  ⟨by decide, by decide,
    claim5_normalize_idem "http://example.com/about"
      ⟨"http", "example.com", none, ["about"], none, none⟩ (by decide) (by decide)⟩
